import Mathlib

/-!
# Verification of the note-backup synchronisation engine

A shallow embedding of `src/bh_support/notedb.py` (class `NoteDB`): the
backup store is modelled as association lists mapping note identifiers to
snapshot directories, a snapshot directory mapping timestamp strings to
snapshots.  `synchronise` is modelled phase by phase (main fetch pass,
backlink-repair pass, deletion reconciliation), producing the final store,
the in-memory note index, a trace of write events, the list of changed
titles, the log of duplicate-deletion messages and a flag recording
whether the Python process would have crashed / called `sys.exit`.
Uncaught exceptions (FileNotFoundError, IndexError, AssertionError) and
`sys.exit` are modelled by the `fatal` flag or by `Option`/`Except`
results in the read accessors.
-/

namespace NoteDB

/-- Association-list lookup: first binding for the key, as a directory
listing would resolve a name. -/
def getA {α : Type} (k : String) : List (String × α) → Option α
  | [] => none
  | (k', v) :: rest => if k' = k then some v else getA k rest

/-- Association-list update: replace the first binding for the key, or
append a fresh binding (creating the directory entry). -/
def setA {α : Type} (k : String) (v : α) : List (String × α) → List (String × α)
  | [] => [(k, v)]
  | (k', v') :: rest => if k' = k then (k, v) :: rest else (k', v') :: setA k v rest

/-- Association-list removal of every binding for the key (the rename
removes the directory from the active area). -/
def removeA {α : Type} (k : String) : List (String × α) → List (String × α)
  | [] => []
  | (k', v') :: rest => if k' = k then removeA k rest else (k', v') :: removeA k rest

/-- `str.find(pat, off)` on the dropped tail: index of the first match of
`pat` inside `l`, scanning left to right. -/
def findSubAux (pat : List Char) : List Char → Option Nat
  | [] => if pat.isEmpty then some 0 else none
  | c :: rest => if pat.isPrefixOf (c :: rest) then some 0 else (findSubAux pat rest).map (· + 1)

/-- Python's `line.find(pat, off)`: the least index `i ≥ off` where `pat`
occurs in `line`, `none` standing for Python's `-1`. -/
def findSub (line pat : List Char) (off : Nat) : Option Nat :=
  (findSubAux pat (line.drop off)).map (· + off)

/-- `pat` occurs in `line` at index `i`. -/
def hasSubAt (line pat : List Char) (i : Nat) : Bool :=
  pat.isPrefixOf (line.drop i)

/-- The opening wiki-link delimiter. -/
def obrk : List Char := ['[', '[']

/-- The closing wiki-link delimiter. -/
def cbrk : List Char := [']', ']']

/-- The line contains an opening delimiter with no closing delimiter at
any later position: the malformed-input condition of `note_links`. -/
def unmatchedOpen (line : List Char) : Bool :=
  (List.range (line.length + 1)).any fun i =>
    hasSubAt line obrk i &&
      (List.range (line.length + 1)).all fun j => decide (j < i) || !(hasSubAt line cbrk j)

/-- One iteration structure of the `while found:` loop of
`NoteDB.note_links` (src/bh_support/notedb.py lines 240-253), with fuel
driving the recursion; fuel exhaustion is unreachable at the fuel used by
`lineLinks` because the offset advances by at least two each iteration.
`Except.error` models the `sys.exit()` on an unterminated link. -/
def scanLine : Nat → List Char → Nat → List (List Char) → Except Unit (List (List Char))
  | 0, _, _, _ => .error ()
  | fuel + 1, line, offset, links =>
    (findSub line obrk offset).elim (.ok links) fun start =>
      (findSub line cbrk start).elim (.error ()) fun finish =>
        scanLine fuel line (finish + 2)
          (if (line.take finish).drop (start + 2) ∈ links then links
           else links ++ [(line.take finish).drop (start + 2)])

/-- Scan a single line starting at offset 0, threading the accumulated
link list (the Python `links` accumulator is shared across lines). -/
def lineLinks (line : List Char) (links : List (List Char)) : Except Unit (List (List Char)) :=
  scanLine (line.length + 1) line 0 links

/-- The body of `NoteDB.note_links`: scan every line in order, threading
the accumulator; an unterminated link aborts the whole extraction. -/
def linksAll : List (List Char) → List (List Char) → Except Unit (List (List Char))
  | [], links => .ok links
  | l :: rest, links =>
    match lineLinks l links with
    | .error e => .error e
    | .ok links' => linksAll rest links'

/-- The slice of a `note.json` metadata record that the synchroniser
reads back: the note's title and tag list. -/
structure Meta where
  title : String
  tags : List String
deriving DecidableEq

/-- One snapshot directory `active/<identifier>/<timestamp>/` of the
backup store.  `meta = none` models an absent `note.json`, `content =
none` an absent `note.md`; `done` records the presence of the `.done`
completion marker. -/
structure Snapshot where
  meta : Option Meta
  content : Option (List String)
  atts : List String
  done : Bool
deriving DecidableEq

/-- A directory that does not exist yet / is empty. -/
def Snapshot.empty : Snapshot := ⟨none, none, [], false⟩

/-- The backup store: the `active/` and `deleted/` areas, each mapping an
identifier to its snapshot directories keyed by timestamp string. -/
structure Store where
  active : List (String × List (String × Snapshot))
  deleted : List (String × List (String × Snapshot))
deriving DecidableEq

/-- One entry of the remote note list, together with the content lines
that the remote `open-note` call returns for it (the remote source is
deterministic within a pass). -/
structure RemoteNote where
  identifier : String
  title : String
  tags : List String
  modificationDate : String
  content : List String
deriving DecidableEq

/-- `note["modificationDate"].replace(":", "-")`: the snapshot directory
name. -/
def mdateOf (n : RemoteNote) : String :=
  String.mk (n.modificationDate.data.map (fun c => if c = ':' then '-' else c))

/-- Lexicographic comparison of character lists by code point, the
order Python uses to compare strings (and `pathlib` paths under one
parent). -/
def lexLeb : List Char → List Char → Bool
  | [], _ => true
  | _ :: _, [] => false
  | a :: as, b :: bs =>
    if a.toNat < b.toNat then true
    else if b.toNat < a.toNat then false
    else lexLeb as bs

/-- Python's `s <= t` on strings. -/
def strLe (a b : String) : Bool := lexLeb a.data b.data

/-- Insert into a sorted list of strings. -/
def insertStr (x : String) : List String → List String
  | [] => [x]
  | y :: ys => if strLe x y then x :: y :: ys else y :: insertStr x ys

/-- Python's `sorted` on a list of strings (insertion sort; the sorted
result is unique for the total order, so only order of algorithm
differs). -/
def sortStrings : List String → List String
  | [] => []
  | x :: xs => insertStr x (sortStrings xs)

/-- `sorted(list(path.glob("*")))[-1]`: the entry with the
lexicographically greatest timestamp key (rightmost maximum, as for a
stable ascending sort). -/
def latestSnap : List (String × Snapshot) → Option (String × Snapshot)
  | [] => none
  | e :: rest =>
    match latestSnap rest with
    | none => some e
    | some b => if strLe e.1 b.1 then some b else some e

/-- Write events performed against the backup store, stamped with the
identifier and snapshot timestamp they touch. -/
inductive WEvent where
  | writeMeta (ident ts : String)
  | writeLine (ident ts line : String)
  | copyAtt (ident ts name : String)
  | touchDone (ident ts : String)
  | moveDeleted (ident : String)
deriving DecidableEq

/-- The identifier a write event touches. -/
def WEvent.ident : WEvent → String
  | .writeMeta i _ => i
  | .writeLine i _ _ => i
  | .copyAtt i _ _ => i
  | .touchDone i _ => i
  | .moveDeleted i => i

/-- `NoteDB._synchronise_attachment` (lines 83-98): the destination file
name extracted from the first `[<atype>:` marker of the line, with
Python slice semantics for a missing `]` (slice end `-1`) and a missing
`/` (slice start `0`); `none` when the marker is absent (the caller's
`in` test fails and the helper is not called). -/
def attDst (atype : String) (line : String) : Option String :=
  match findSub line.data ("[" ++ atype ++ ":").data 0 with
  | none => none
  | some idx =>
    let b := idx + atype.length + 2
    let e := match findSub line.data [']'] b with
      | some e => e
      | none => line.data.length - 1
    let s := match findSub line.data ['/'] b with
      | some sl => sl + 1
      | none => 0
    some (String.mk ((line.data.take e).drop s))

/-- The attachments copied for one content line: the `file` marker is
processed first, then the `image` marker (lines 112-115). -/
def lineAtts (line : String) : List String :=
  (attDst "file" line).toList ++ (attDst "image" line).toList

/-- Copy the attachments of one line in order.  A destination named
`note.md` trips the `assert` (line 91) before its copy: no further
writes happen and the crash propagates (`ok = false`). -/
def attRun (ident ts : String) : List String → List String × List WEvent × Bool
  | [] => ([], [], true)
  | a :: rest =>
    if a = "note.md" then ([], [], false)
    else
      let r := attRun ident ts rest
      (a :: r.1, WEvent.copyAtt ident ts a :: r.2.1, r.2.2)

/-- Accumulated effect of the per-line loop of `_synchronise_note`:
lines written to `note.md` so far, attachments copied, events emitted,
and whether the loop completed without the assertion crash. -/
structure FetchAcc where
  lines : List String
  atts : List String
  events : List WEvent
  ok : Bool
deriving DecidableEq

/-- The `for line in content:` loop of `_synchronise_note` (lines
109-115): each line is written, then its attachments are copied; an
assertion crash stops the loop with the lines written so far persisted. -/
def fetchLines (ident ts : String) : List String → FetchAcc
  | [] => ⟨[], [], [], true⟩
  | line :: rest =>
    let a := attRun ident ts (lineAtts line)
    if a.2.2 then
      let fr := fetchLines ident ts rest
      ⟨line :: fr.lines, a.1 ++ fr.atts, WEvent.writeLine ident ts line :: (a.2.1 ++ fr.events), fr.ok⟩
    else
      ⟨[line], a.1, WEvent.writeLine ident ts line :: a.2.1, false⟩

/-- `NoteDB._synchronise_note` (lines 101-115): write `note.json`
(making the metadata present even if a later line crashes), then write
`note.md` line by line, copying attachments as they are seen.  Returns
the resulting snapshot directory state, the event trace, and whether
the fetch completed.  The `.done` flag is untouched here — the caller
touches the marker afterwards. -/
def fetchNote (prior : Snapshot) (n : RemoteNote) : Snapshot × List WEvent × Bool :=
  let ident := n.identifier
  let ts := mdateOf n
  let fr := fetchLines ident ts n.content
  (⟨some ⟨n.title, n.tags⟩, some fr.lines, prior.atts ++ fr.atts, prior.done⟩,
   WEvent.writeMeta ident ts :: fr.events, fr.ok)

/-- No content line references an attachment whose destination name is
`note.md`, so the `assert` of `_synchronise_attachment` cannot fire
while fetching this note. -/
def noReservedAtt (n : RemoteNote) : Bool :=
  n.content.all fun line => decide ("note.md" ∉ lineAtts line)

/-- Result of processing one remote note in the main pass of
`synchronise`. -/
structure StepResult where
  store : Store
  events : List WEvent
  titleAdd : List String
  fatal : Bool
deriving DecidableEq

/-- Lines 150-153 of `synchronise`: fetch the note into its
snapshot directory and touch the `.done` marker afterwards (the marker
is skipped when the fetch crashes, and the crash is fatal). -/
def fetchStep (s : Store) (n : RemoteNote) (dir : List (String × Snapshot))
    (cur : Option Snapshot) (titleAdd : List String) : StepResult :=
  let ident := n.identifier
  let ts := mdateOf n
  let prior := cur.getD Snapshot.empty
  let f := fetchNote prior n
  if f.2.2 then
    let snap2 := { f.1 with done := true }
    ⟨⟨setA ident (setA ts snap2 dir) s.active, s.deleted⟩,
      f.2.1 ++ [WEvent.touchDone ident ts], titleAdd, false⟩
  else
    ⟨⟨setA ident (setA ts f.1 dir) s.active, s.deleted⟩, f.2.1, titleAdd, true⟩

/-- Reading `note_dates[-1]/"note.json"` in the title-comparison branch
(lines 143-148): a missing `note.json` in the latest snapshot is the
uncaught FileNotFoundError (fatal); otherwise the old title is recorded
when it differs, and then the `.done` marker decides the fetch. -/
def processNoteTitle2 (s : Store) (n : RemoteNote) (dir : List (String × Snapshot))
    (cur : Option Snapshot) : Option Meta → StepResult
  | none => ⟨s, [], [], true⟩
  | some lm =>
    let titleAdd := if lm.title ≠ n.title then [lm.title] else []
    if !((cur.map Snapshot.done).getD false) then fetchStep s n dir cur titleAdd
    else ⟨s, [], titleAdd, false⟩

/-- The `note_dates != []` test of line 142: with no existing snapshot
directory at all, only the `.done` marker decides the fetch. -/
def processNoteTitle (s : Store) (n : RemoteNote) (dir : List (String × Snapshot))
    (cur : Option Snapshot) : Option (String × Snapshot) → StepResult
  | none =>
    if !((cur.map Snapshot.done).getD false) then fetchStep s n dir cur []
    else ⟨s, [], [], false⟩
  | some l => processNoteTitle2 s n dir cur l.2.meta

/-- The `json_path.exists()` test of line 134: with `note.json` present
at the expected path its tag set is compared (order-insensitively)
against the remote tags; a difference forces the fetch even when the
`.done` marker is present. -/
def processNoteMeta (s : Store) (n : RemoteNote) (dir : List (String × Snapshot))
    (cur : Option Snapshot) : Option Meta → StepResult
  | some m =>
    if !((cur.map Snapshot.done).getD false)
        || decide (sortStrings m.tags ≠ sortStrings n.tags)
    then fetchStep s n dir cur [] else ⟨s, [], [], false⟩
  | none => processNoteTitle s n dir cur (latestSnap dir)

/-- Per-note body of the main loop of `synchronise` (lines 124-153):
decide staleness (tag change at the expected timestamp, else title
comparison against the latest older snapshot, else the `.done` marker)
and fetch when stale. -/
def processNote (s : Store) (n : RemoteNote) : StepResult :=
  processNoteMeta s n ((getA n.identifier s.active).getD [])
    (getA (mdateOf n) ((getA n.identifier s.active).getD []))
    ((getA (mdateOf n) ((getA n.identifier s.active).getD [])).bind Snapshot.meta)

/-- State accumulated by a full pass over the remote note list. -/
structure PassState where
  store : Store
  nlist : List (String × RemoteNote)
  events : List WEvent
  titleChanged : List String
  fatal : Bool
deriving DecidableEq

/-- The main loop of `synchronise` (lines 124-153): record each note in
the in-memory index, process it, and stop at the first fatal error. -/
def mainPass (s : Store) (nl : List (String × RemoteNote)) : List RemoteNote → PassState
  | [] => ⟨s, nl, [], [], false⟩
  | n :: rest =>
    let nl' := setA n.identifier n nl
    let r := processNote s n
    if r.fatal then ⟨r.store, nl', r.events, r.titleAdd, true⟩
    else
      let p := mainPass r.store nl' rest
      ⟨p.store, p.nlist, r.events ++ p.events, r.titleAdd ++ p.titleChanged, p.fatal⟩

/-- Content of the lexicographically-latest snapshot of one identifier
directory.  `none` models the uncaught IndexError on `note_dates[-1]`
when no snapshot directory exists, or the uncaught FileNotFoundError
when the latest snapshot has no `note.md`. -/
def dirContents (dir : List (String × Snapshot)) : Option (List String) :=
  match latestSnap dir with
  | none => none
  | some l => l.2.content

/-- Link extraction over one identifier directory's latest content;
`none` models a crash (missing file or the `sys.exit()` on an
unterminated link). -/
def dirLinks (dir : List (String × Snapshot)) : Option (List String) :=
  match dirContents dir with
  | none => none
  | some lines =>
    match linksAll (lines.map String.data) [] with
    | .ok ls => some (ls.map String.mk)
    | .error _ => none

/-- `NoteDB.note_contents` (lines 225-231): read `note.md` of the
lexicographically-latest snapshot directory of the identifier. -/
def noteContents (s : Store) (id : String) : Option (List String) :=
  dirContents ((getA id s.active).getD [])

/-- `NoteDB.note_links` (lines 234-254): extract the wiki-link targets
of the latest snapshot's content. -/
def noteLinks (s : Store) (id : String) : Option (List String) :=
  dirLinks ((getA id s.active).getD [])

/-- One backlink-triggered re-fetch (lines 163-168): look the note up in
the in-memory index (`none` is the impossible KeyError, fatal), fetch it
at its current timestamp and touch the marker; a crashing fetch is
fatal. -/
def backlinkFetchOne (s : Store) (ident : String) : Option RemoteNote →
    Store × List WEvent × Bool
  | none => (s, [], true)
  | some n =>
    let ts := mdateOf n
    let dir := (getA ident s.active).getD []
    let cur := getA ts dir
    let f := fetchNote (cur.getD Snapshot.empty) n
    if f.2.2 then
      (⟨setA ident (setA ts { f.1 with done := true } dir) s.active, s.deleted⟩,
        f.2.1 ++ [WEvent.touchDone ident ts], false)
    else
      (⟨setA ident (setA ts f.1 dir) s.active, s.deleted⟩, f.2.1, true)

/-- Inner loop of the backlink-repair pass (lines 161-168): for each
extracted link of the note, a link whose target title changed this pass
triggers a fresh fetch of the note. -/
def backlinkFetches (s : Store) (nl : List (String × RemoteNote)) (tch : List String)
    (ident : String) : List String → Store × List WEvent × Bool
  | [] => (s, [], false)
  | link :: rest =>
    if link ∈ tch then
      let r := backlinkFetchOne s ident (getA ident nl)
      if r.2.2 then r
      else
        let p := backlinkFetches r.1 nl tch ident rest
        (p.1, r.2.1 ++ p.2.1, p.2.2)
    else backlinkFetches s nl tch ident rest

/-- Case split on the result of link extraction for one identifier:
`none` (a crash reading the latest snapshot, or the `sys.exit` on an
unterminated link) is fatal; otherwise each link is checked against the
changed titles. -/
def backlinkIdentLinks (s : Store) (nl : List (String × RemoteNote)) (tch : List String)
    (ident : String) : Option (List String) → Store × List WEvent × Bool
  | none => (s, [], true)
  | some links => backlinkFetches s nl tch ident links

/-- One identifier of the backlink-repair pass (lines 160-168): extract
the links of its latest snapshot, then re-fetch once per link whose
target title changed. -/
def backlinkIdent (s : Store) (nl : List (String × RemoteNote)) (tch : List String)
    (ident : String) : Store × List WEvent × Bool :=
  backlinkIdentLinks s nl tch ident (noteLinks s ident)

/-- The backlink-repair pass over the active identifiers, in remote-list
order, stopping at the first fatal error. -/
def backlinkPass (s : Store) (nl : List (String × RemoteNote)) (tch : List String) :
    List String → Store × List WEvent × Bool
  | [] => (s, [], false)
  | ident :: rest =>
    let r := backlinkIdent s nl tch ident
    if r.2.2 then r
    else
      let p := backlinkPass r.1 nl tch rest
      (p.1, r.2.1 ++ p.2.1, p.2.2)

/-- The logged duplicate-deletion message (line 178). -/
def dupMsg (ident : String) : String :=
  "ERROR: deleted note was already deleted? " ++ ident

/-- Deletion reconciliation (lines 170-181): walk the listing of the
active area taken at entry; every identifier not in the active list is
renamed into the deleted area, unless the deleted area already holds an
entry for it, in which case the anomaly is logged and the move
skipped. -/
def deletionPass (activeIds : List String) :
    List (String × List (String × Snapshot)) → Store → Store × List WEvent × List String
  | [], s => (s, [], [])
  | (name, dirv) :: rest, s =>
    if name ∈ activeIds then deletionPass activeIds rest s
    else if (getA name s.deleted).isSome then
      let r := deletionPass activeIds rest s
      (r.1, r.2.1, dupMsg name :: r.2.2)
    else
      let s' : Store := ⟨removeA name s.active, setA name dirv s.deleted⟩
      let r := deletionPass activeIds rest s'
      (r.1, WEvent.moveDeleted name :: r.2.1, r.2.2)

/-- The observable outcome of one `synchronise()` call. -/
structure SyncResult where
  store : Store
  nlist : List (String × RemoteNote)
  events : List WEvent
  titleChanged : List String
  log : List String
  fatal : Bool
deriving DecidableEq

/-- Assemble the result after the backlink-repair pass: a fatal error
there aborts deletion reconciliation; otherwise the deletion pass walks
the active-area listing. -/
def syncAfterBacklink (activeIds : List String) (p : PassState)
    (b : Store × List WEvent × Bool) : SyncResult :=
  if b.2.2 then ⟨b.1, p.nlist, p.events ++ b.2.1, p.titleChanged, [], true⟩
  else
    ⟨(deletionPass activeIds b.1.active b.1).1, p.nlist,
      p.events ++ b.2.1 ++ (deletionPass activeIds b.1.active b.1).2.1,
      p.titleChanged, (deletionPass activeIds b.1.active b.1).2.2, false⟩

/-- Assemble the result after the main pass: a fatal error there aborts
the backlink-repair and deletion phases. -/
def syncAfterMain (remote : List RemoteNote) (p : PassState) : SyncResult :=
  if p.fatal then ⟨p.store, p.nlist, p.events, p.titleChanged, [], true⟩
  else
    syncAfterBacklink (remote.map (fun n => n.identifier)) p
      (backlinkPass p.store p.nlist p.titleChanged (remote.map (fun n => n.identifier)))

/-- `NoteDB.synchronise` (lines 118-181): main fetch pass, then the
backlink-repair pass, then deletion reconciliation; a fatal error in an
earlier phase aborts the later ones (the Python process dies). -/
def synchronise (remote : List RemoteNote) (s : Store) : SyncResult :=
  syncAfterMain remote (mainPass s [] remote)

/-- `NoteDB.note_exists` (lines 214-216): membership in the in-memory
index rebuilt by the pass. -/
def noteExists (r : SyncResult) (id : String) : Bool :=
  (getA id r.nlist).isSome

/-- Modelled from the claim's words (C4): metadata JSON first, then the
whole text content, then every referenced attachment, and the completion
marker as the final write. -/
def claimedFetchOrder (n : RemoteNote) : List WEvent :=
  WEvent.writeMeta n.identifier (mdateOf n) ::
    n.content.map (WEvent.writeLine n.identifier (mdateOf n)) ++
    (n.content.flatMap lineAtts).map (WEvent.copyAtt n.identifier (mdateOf n)) ++
    [WEvent.touchDone n.identifier (mdateOf n)]

/-- The order the code actually writes in: metadata JSON first, then for
each content line in order the line itself followed by the attachments
referenced on that line, with the completion marker as the final
write. -/
def perLineFetchOrder (n : RemoteNote) : List WEvent :=
  WEvent.writeMeta n.identifier (mdateOf n) ::
    (n.content.flatMap fun line =>
      WEvent.writeLine n.identifier (mdateOf n) line ::
        (lineAtts line).map (WEvent.copyAtt n.identifier (mdateOf n))) ++
    [WEvent.touchDone n.identifier (mdateOf n)]

/-! ## Lemmas about substring search -/

theorem findSubAux_some (pat l : List Char) (i : Nat) (h : findSubAux pat l = some i) :
    pat.isPrefixOf (l.drop i) = true := by
  induction l generalizing i with
  | nil =>
    unfold findSubAux at h
    by_cases he : pat.isEmpty
    · simp [he] at h
      subst h
      cases pat with
      | nil => rfl
      | cons a as => simp [List.isEmpty] at he
    · simp [he] at h
  | cons c rest ih =>
    unfold findSubAux at h
    by_cases hp : pat.isPrefixOf (c :: rest)
    · simp [hp] at h
      subst h
      simpa using hp
    · simp [hp] at h
      obtain ⟨j, hj, hij⟩ := h
      subst hij
      simpa using ih j hj

theorem findSubAux_none (pat l : List Char) (hp : pat ≠ [])
    (h : findSubAux pat l = none) (i : Nat) : pat.isPrefixOf (l.drop i) = false := by
  induction l generalizing i with
  | nil =>
    simp only [List.drop_nil]
    cases pat with
    | nil => exact absurd rfl hp
    | cons a as => rfl
  | cons c rest ih =>
    unfold findSubAux at h
    cases hpre : pat.isPrefixOf (c :: rest) with
    | true => rw [hpre] at h; simp at h
    | false =>
      simp only [hpre, Bool.false_eq_true, if_false, Option.map_eq_none'] at h
      cases i with
      | zero => simpa using hpre
      | succ j => simpa using ih h j

theorem findSub_some (line pat : List Char) (off i : Nat)
    (h : findSub line pat off = some i) :
    off ≤ i ∧ hasSubAt line pat i = true := by
  unfold findSub at h
  cases hf : findSubAux pat (line.drop off) with
  | none => rw [hf] at h; simp at h
  | some j =>
    rw [hf] at h
    simp at h
    subst h
    refine ⟨by omega, ?_⟩
    have := findSubAux_some pat (line.drop off) j hf
    rwa [List.drop_drop, Nat.add_comm off j] at this

theorem findSub_none (line pat : List Char) (off : Nat) (hp : pat ≠ [])
    (h : findSub line pat off = none) (j : Nat) (hj : off ≤ j) :
    hasSubAt line pat j = false := by
  unfold findSub at h
  cases hf : findSubAux pat (line.drop off) with
  | some k => rw [hf] at h; simp at h
  | none =>
    have := findSubAux_none pat (line.drop off) hp hf (j - off)
    unfold hasSubAt
    rwa [List.drop_drop, Nat.add_sub_cancel' hj] at this

theorem findSub_isSome (line pat : List Char) (off j : Nat) (hp : pat ≠ [])
    (hj : off ≤ j) (h : hasSubAt line pat j = true) :
    ∃ i, findSub line pat off = some i := by
  cases hf : findSub line pat off with
  | none => exact absurd h (by simp [findSub_none line pat off hp hf j hj])
  | some i => exact ⟨i, rfl⟩

theorem hasSubAt_bound (line pat : List Char) (i : Nat) (hp : pat ≠ [])
    (h : hasSubAt line pat i = true) : i + pat.length ≤ line.length := by
  unfold hasSubAt at h
  have hpre : pat <+: line.drop i := List.isPrefixOf_iff_prefix.mp h
  have hlen : pat.length ≤ (line.drop i).length := hpre.length_le
  rw [List.length_drop] at hlen
  have hpos : 0 < pat.length := by
    cases pat with
    | nil => exact absurd rfl hp
    | cons a as => simp
  omega

theorem pair_isPrefixOf (a b : Char) (l : List Char) :
    ([a, b].isPrefixOf l = true) ↔ ∃ t, l = a :: b :: t := by
  cases l with
  | nil => simp [List.isPrefixOf]
  | cons x xs =>
    cases xs with
    | nil => simp [List.isPrefixOf]
    | cons y ys =>
      simp only [List.isPrefixOf, Bool.and_eq_true, beq_iff_eq, List.cons.injEq]
      constructor
      · rintro ⟨hx, hy, -⟩
        exact ⟨ys, by simp [hx.symm, hy.symm]⟩
      · rintro ⟨t, hx, hy, ht⟩
        simp [hx, hy, ht, List.isPrefixOf]

theorem cbrk_obrk_clash (line : List Char) (f : Nat)
    (hc : hasSubAt line cbrk f = true) (ho : hasSubAt line obrk (f + 1) = true) : False := by
  unfold hasSubAt at hc ho
  obtain ⟨t, ht⟩ := (pair_isPrefixOf _ _ _).mp hc
  obtain ⟨u, hu⟩ := (pair_isPrefixOf _ _ _).mp ho
  have : line.drop (f + 1) = (line.drop f).drop 1 := by
    rw [List.drop_drop]
  rw [this, ht] at hu
  simp at hu

/-! ## Lemmas about the link scanner -/

theorem scanLine_error (line : List Char) (fuel : Nat) :
    ∀ offset links, (∃ i, offset ≤ i ∧ hasSubAt line obrk i = true ∧
      ∀ j, i ≤ j → hasSubAt line cbrk j = false) →
    scanLine fuel line offset links = .error () := by
  induction fuel with
  | zero => intro offset links _; rfl
  | succ fuel ih =>
    rintro offset links ⟨i, hoi, hob, hnc⟩
    unfold scanLine
    cases hfo : findSub line obrk offset with
    | none =>
      exact absurd hob (by simp [findSub_none line obrk offset (by simp [obrk]) hfo i hoi])
    | some start =>
      simp only [Option.elim_some]
      cases hfc : findSub line cbrk start with
      | none => simp only [Option.elim_none]
      | some finish =>
        simp only [Option.elim_some]
        obtain ⟨hos, hsb⟩ := findSub_some line obrk offset start hfo
        obtain ⟨hsf, hfb⟩ := findSub_some line cbrk start finish hfc
        have hfi : finish < i := by
          by_contra hcon
          push_neg at hcon
          exact absurd hfb (by simp [hnc finish hcon])
        have hne : i ≠ finish + 1 := by
          intro he
          exact cbrk_obrk_clash line finish hfb (he ▸ hob)
        apply ih
        exact ⟨i, by omega, hob, hnc⟩

theorem nodup_append_singleton {α : Type} (l : List α) (a : α)
    (hl : l.Nodup) (ha : a ∉ l) : (l ++ [a]).Nodup := by
  refine List.Nodup.append hl (by simp) ?_
  intro x hx hxa
  simp at hxa
  exact ha (hxa ▸ hx)

theorem scanLine_ok (line : List Char) (fuel : Nat) :
    ∀ offset links, line.length + 1 ≤ fuel + offset → offset ≤ line.length →
    (∀ i, offset ≤ i → hasSubAt line obrk i = true →
      ∃ j, i ≤ j ∧ hasSubAt line cbrk j = true) →
    ∃ out, scanLine fuel line offset links = .ok out ∧ (links.Nodup → out.Nodup) := by
  induction fuel with
  | zero => intro offset links hf ho _; omega
  | succ fuel ih =>
    intro offset links hf ho hmatch
    unfold scanLine
    cases hfo : findSub line obrk offset with
    | none => exact ⟨links, by simp, fun h => h⟩
    | some start =>
      simp only [Option.elim_some]
      obtain ⟨hos, hsb⟩ := findSub_some line obrk offset start hfo
      obtain ⟨j, hsj, hjb⟩ := hmatch start hos hsb
      obtain ⟨finish, hfc⟩ := findSub_isSome line cbrk start j (by simp [cbrk]) hsj hjb
      rw [hfc]
      simp only [Option.elim_some]
      obtain ⟨hsf, hfb⟩ := findSub_some line cbrk start finish hfc
      have hbound : finish + 2 ≤ line.length :=
        hasSubAt_bound line cbrk finish (by simp [cbrk]) hfb
      have hrec := ih (finish + 2)
        (if (line.take finish).drop (start + 2) ∈ links then links
         else links ++ [(line.take finish).drop (start + 2)])
        (by omega) (by omega)
        (fun i hi hb => hmatch i (by omega) hb)
      obtain ⟨out, hout, hnd⟩ := hrec
      refine ⟨out, hout, fun h => hnd ?_⟩
      by_cases hmem : (line.take finish).drop (start + 2) ∈ links
      · simpa [hmem] using h
      · simp only [hmem, if_false]
        exact nodup_append_singleton _ _ h hmem

theorem unmatchedOpen_iff (l : List Char) :
    unmatchedOpen l = true ↔
      ∃ i, hasSubAt l obrk i = true ∧ ∀ j, i ≤ j → hasSubAt l cbrk j = false := by
  unfold unmatchedOpen
  simp only [List.any_eq_true, List.mem_range, Bool.and_eq_true, List.all_eq_true,
    Bool.or_eq_true, decide_eq_true_eq, Bool.not_eq_true']
  constructor
  · rintro ⟨i, -, hob, hall⟩
    refine ⟨i, hob, fun j hij => ?_⟩
    by_cases hj : j < l.length + 1
    · rcases hall j hj with h | h
      · omega
      · exact h
    · by_contra hc
      simp only [Bool.not_eq_false] at hc
      have := hasSubAt_bound l cbrk j (by simp [cbrk]) hc
      simp [cbrk] at this
      omega
  · rintro ⟨i, hob, hnc⟩
    have hib := hasSubAt_bound l obrk i (by simp [obrk]) hob
    simp only [obrk, List.length_cons, List.length_nil] at hib
    refine ⟨i, by omega, hob, fun j _ => ?_⟩
    by_cases hij : j < i
    · exact Or.inl hij
    · exact Or.inr (hnc j (by omega))

theorem matched_of_not_unmatchedOpen (l : List Char) (h : unmatchedOpen l = false)
    (i : Nat) (hob : hasSubAt l obrk i = true) :
    ∃ j, i ≤ j ∧ hasSubAt l cbrk j = true := by
  by_contra hc
  push_neg at hc
  have : unmatchedOpen l = true := by
    rw [unmatchedOpen_iff]
    refine ⟨i, hob, fun j hij => ?_⟩
    have := hc j hij
    simpa using this
  rw [h] at this
  exact absurd this (by simp)

theorem lineLinks_error (l : List Char) (links : List (List Char))
    (hu : unmatchedOpen l = true) : lineLinks l links = .error () := by
  obtain ⟨i, hob, hnc⟩ := (unmatchedOpen_iff l).mp hu
  exact scanLine_error l (l.length + 1) 0 links ⟨i, Nat.zero_le i, hob, hnc⟩

theorem lineLinks_ok (l : List Char) (links : List (List Char))
    (hu : unmatchedOpen l = false) :
    ∃ out, lineLinks l links = .ok out ∧ (links.Nodup → out.Nodup) :=
  scanLine_ok l (l.length + 1) 0 links (by omega) (Nat.zero_le _)
    (fun i _ hb => matched_of_not_unmatchedOpen l hu i hb)

theorem linksAll_error (lines : List (List Char)) (l : List Char)
    (hl : l ∈ lines) (hu : unmatchedOpen l = true) :
    ∀ links, linksAll lines links = .error () := by
  induction lines with
  | nil => exact absurd hl (by simp)
  | cons hd tl ih =>
    intro links
    unfold linksAll
    rcases List.mem_cons.mp hl with he | htl
    · subst he
      rw [lineLinks_error l links hu]
    · cases hld : lineLinks hd links with
      | error e => rfl
      | ok links' => exact ih htl links'

theorem linksAll_ok (lines : List (List Char)) (h : ∀ l ∈ lines, unmatchedOpen l = false) :
    ∀ links, links.Nodup → ∃ out, linksAll lines links = .ok out ∧ out.Nodup := by
  induction lines with
  | nil => exact fun links hn => ⟨links, rfl, hn⟩
  | cons hd tl ih =>
    intro links hn
    obtain ⟨mid, hmid, hmnd⟩ := lineLinks_ok hd links (h hd (by simp))
    unfold linksAll
    rw [hmid]
    exact ih (fun l hl => h l (by simp [hl])) mid (hmnd hn)

/-! ## Association-list lemmas -/

theorem getA_setA_self {α : Type} (k : String) (v : α) (l : List (String × α)) :
    getA k (setA k v l) = some v := by
  induction l with
  | nil => simp [getA, setA]
  | cons e rest ih =>
    unfold setA
    by_cases h : e.1 = k
    · simp [h, getA]
    · simp [h, getA, ih]

theorem getA_setA_ne {α : Type} (k k' : String) (v : α) (l : List (String × α))
    (h : k' ≠ k) : getA k (setA k' v l) = getA k l := by
  induction l with
  | nil => simp [getA, setA, h]
  | cons e rest ih =>
    unfold setA
    by_cases he : e.1 = k'
    · simp [he, getA, h, he ▸ h]
    · simp only [he, if_false]
      unfold getA
      by_cases hek : e.1 = k
      · simp [hek]
      · simp [hek, ih]

theorem getA_removeA_self {α : Type} (k : String) (l : List (String × α)) :
    getA k (removeA k l) = none := by
  induction l with
  | nil => simp [getA, removeA]
  | cons e rest ih =>
    unfold removeA
    by_cases h : e.1 = k
    · simp [h, ih]
    · simp [h, getA, ih]

theorem getA_removeA_ne {α : Type} (k k' : String) (l : List (String × α))
    (h : k' ≠ k) : getA k (removeA k' l) = getA k l := by
  induction l with
  | nil => simp [removeA]
  | cons e rest ih =>
    obtain ⟨k0, v0⟩ := e
    unfold removeA
    by_cases he : k0 = k'
    · subst he
      rw [if_pos rfl, ih]
      simp [getA, h]
    · rw [if_neg he]
      unfold getA
      by_cases hek : k0 = k
      · simp [hek]
      · simp [hek, ih]

theorem getA_mem {α : Type} (k : String) (v : α) (l : List (String × α))
    (h : getA k l = some v) : (k, v) ∈ l := by
  induction l with
  | nil => simp [getA] at h
  | cons e rest ih =>
    unfold getA at h
    by_cases he : e.1 = k
    · rw [if_pos he] at h
      simp only [Option.some.injEq] at h
      have hkv : (k, v) = e := by
        rw [← he, ← h]
      rw [hkv]
      exact List.mem_cons_self e rest
    · rw [if_neg he] at h
      exact List.mem_cons_of_mem e (ih h)

/-! ## Fetch-order lemmas -/

theorem attRun_no_reserved (i t : String) (as : List String) (h : "note.md" ∉ as) :
    attRun i t as = (as, as.map (WEvent.copyAtt i t), true) := by
  induction as with
  | nil => rfl
  | cons a rest ih =>
    simp only [List.mem_cons, not_or] at h
    unfold attRun
    rw [if_neg (fun he => h.1 he.symm), ih h.2]
    simp

theorem fetchLines_no_reserved (i t : String) (ls : List String)
    (h : ∀ line ∈ ls, "note.md" ∉ lineAtts line) :
    fetchLines i t ls = ⟨ls, ls.flatMap lineAtts,
      ls.flatMap (fun line =>
        WEvent.writeLine i t line :: (lineAtts line).map (WEvent.copyAtt i t)),
      true⟩ := by
  induction ls with
  | nil => rfl
  | cons line rest ih =>
    unfold fetchLines
    rw [attRun_no_reserved i t _ (h line (by simp))]
    simp only [if_true]
    rw [ih (fun l hl => h l (by simp [hl]))]
    simp

theorem noReservedAtt_lines (n : RemoteNote) (hok : noReservedAtt n = true) :
    ∀ line ∈ n.content, "note.md" ∉ lineAtts line := by
  intro line hl
  have := (List.all_eq_true.mp hok) line hl
  simpa using this

theorem fetchNote_no_reserved (prior : Snapshot) (n : RemoteNote)
    (hok : noReservedAtt n = true) :
    fetchNote prior n =
      (⟨some ⟨n.title, n.tags⟩, some n.content,
          prior.atts ++ n.content.flatMap lineAtts, prior.done⟩,
        WEvent.writeMeta n.identifier (mdateOf n) ::
          n.content.flatMap (fun line =>
            WEvent.writeLine n.identifier (mdateOf n) line ::
              (lineAtts line).map (WEvent.copyAtt n.identifier (mdateOf n))),
        true) := by
  simp only [fetchNote]
  rw [fetchLines_no_reserved _ _ _ (noReservedAtt_lines n hok)]

theorem fetchStep_no_reserved (s : Store) (n : RemoteNote)
    (dir : List (String × Snapshot)) (cur : Option Snapshot) (ta : List String)
    (hok : noReservedAtt n = true) :
    fetchStep s n dir cur ta =
      ⟨⟨setA n.identifier
          (setA (mdateOf n)
            ⟨some ⟨n.title, n.tags⟩, some n.content,
              (cur.getD Snapshot.empty).atts ++ n.content.flatMap lineAtts, true⟩ dir)
          s.active, s.deleted⟩,
        perLineFetchOrder n, ta, false⟩ := by
  simp only [fetchStep]
  rw [fetchNote_no_reserved _ _ hok]
  simp [perLineFetchOrder]

theorem perLineFetchOrder_concat (n : RemoteNote) :
    perLineFetchOrder n =
      (WEvent.writeMeta n.identifier (mdateOf n) ::
        n.content.flatMap (fun line =>
          WEvent.writeLine n.identifier (mdateOf n) line ::
            (lineAtts line).map (WEvent.copyAtt n.identifier (mdateOf n)))) ++
      [WEvent.touchDone n.identifier (mdateOf n)] := by
  simp [perLineFetchOrder]

theorem perLineFetchOrder_no_early_done (n : RemoteNote) (e : WEvent)
    (he : e ∈ WEvent.writeMeta n.identifier (mdateOf n) ::
        n.content.flatMap (fun line =>
          WEvent.writeLine n.identifier (mdateOf n) line ::
            (lineAtts line).map (WEvent.copyAtt n.identifier (mdateOf n)))) :
    e ≠ WEvent.touchDone n.identifier (mdateOf n) := by
  rcases List.mem_cons.mp he with h | h
  · subst h; simp
  · obtain ⟨line, -, hline⟩ := List.mem_flatMap.mp h
    rcases List.mem_cons.mp hline with h' | h'
    · subst h'; simp
    · obtain ⟨a, -, ha⟩ := List.mem_map.mp h'
      subst ha; simp

/-! ## Event-identifier lemmas -/

theorem attRun_ident (i t : String) (as : List String) :
    ∀ e ∈ (attRun i t as).2.1, e.ident = i := by
  induction as with
  | nil => simp [attRun]
  | cons a rest ih =>
    unfold attRun
    by_cases h : a = "note.md"
    · simp [h]
    · simp only [h, if_false, List.mem_cons]
      rintro e (rfl | he)
      · rfl
      · exact ih e he

theorem fetchLines_ident (i t : String) (ls : List String) :
    ∀ e ∈ (fetchLines i t ls).events, e.ident = i := by
  induction ls with
  | nil => simp [fetchLines]
  | cons line rest ih =>
    unfold fetchLines
    by_cases h : (attRun i t (lineAtts line)).2.2
    · simp only [h, if_true, List.mem_cons, List.mem_append]
      rintro e (rfl | he | he)
      · rfl
      · exact attRun_ident i t _ e he
      · exact ih e he
    · simp only [h, if_false, Bool.false_eq_true, List.mem_cons]
      rintro e (rfl | he)
      · rfl
      · exact attRun_ident i t _ e he

theorem fetchNote_ident (prior : Snapshot) (n : RemoteNote) :
    ∀ e ∈ (fetchNote prior n).2.1, e.ident = n.identifier := by
  simp only [fetchNote, List.mem_cons]
  rintro e (rfl | he)
  · rfl
  · exact fetchLines_ident n.identifier (mdateOf n) n.content e he

theorem fetchStep_ident (s : Store) (n : RemoteNote) (dir : List (String × Snapshot))
    (cur : Option Snapshot) (ta : List String) :
    ∀ e ∈ (fetchStep s n dir cur ta).events, e.ident = n.identifier := by
  unfold fetchStep
  by_cases h : (fetchNote (cur.getD Snapshot.empty) n).2.2
  · simp only [h, if_true, List.mem_append, List.mem_singleton]
    rintro e (he | rfl)
    · exact fetchNote_ident _ n e he
    · rfl
  · simp only [h, if_false, Bool.false_eq_true]
    exact fun e he => fetchNote_ident _ n e he

/-- `fetchStep` only rebinds the note's own identifier in the active
area and never touches the deleted area. -/
theorem fetchStep_frame (s : Store) (n : RemoteNote) (dir : List (String × Snapshot))
    (cur : Option Snapshot) (ta : List String) (k : String) (hk : k ≠ n.identifier) :
    getA k (fetchStep s n dir cur ta).store.active = getA k s.active ∧
    (fetchStep s n dir cur ta).store.deleted = s.deleted := by
  simp only [fetchStep]
  by_cases h : (fetchNote (cur.getD Snapshot.empty) n).2.2
  · rw [if_pos h]
    exact ⟨getA_setA_ne k n.identifier _ s.active (fun he => hk he.symm), rfl⟩
  · rw [if_neg h]
    exact ⟨getA_setA_ne k n.identifier _ s.active (fun he => hk he.symm), rfl⟩

/-- `processNote` only rebinds the note's own identifier in the active
area and never touches the deleted area. -/
theorem processNote_frame (s : Store) (n : RemoteNote) (k : String)
    (hk : k ≠ n.identifier) :
    getA k (processNote s n).store.active = getA k s.active ∧
    (processNote s n).store.deleted = s.deleted := by
  unfold processNote
  cases hmeta : (getA (mdateOf n) ((getA n.identifier s.active).getD [])).bind
      Snapshot.meta with
  | some m =>
    simp only [processNoteMeta]
    by_cases hc : (!((getA (mdateOf n) ((getA n.identifier s.active).getD [])).map
          Snapshot.done).getD false || decide (sortStrings m.tags ≠ sortStrings n.tags))
        = true
    · rw [if_pos hc]
      exact fetchStep_frame s n _ _ [] k hk
    · rw [if_neg hc]
      exact ⟨rfl, rfl⟩
  | none =>
    simp only [processNoteMeta]
    cases hlat : latestSnap ((getA n.identifier s.active).getD []) with
    | none =>
      simp only [processNoteTitle]
      by_cases hc : (!((getA (mdateOf n) ((getA n.identifier s.active).getD [])).map
            Snapshot.done).getD false) = true
      · rw [if_pos hc]
        exact fetchStep_frame s n _ _ [] k hk
      · rw [if_neg hc]
        exact ⟨rfl, rfl⟩
    | some l =>
      simp only [processNoteTitle]
      cases hlm : l.2.meta with
      | none => exact ⟨rfl, rfl⟩
      | some lm =>
        simp only [processNoteTitle2]
        by_cases hc : (!((getA (mdateOf n) ((getA n.identifier s.active).getD [])).map
              Snapshot.done).getD false) = true
        · rw [if_pos hc]
          exact fetchStep_frame s n _ _ _ k hk
        · rw [if_neg hc]
          exact ⟨rfl, rfl⟩

theorem processNote_ident (s : Store) (n : RemoteNote) :
    ∀ e ∈ (processNote s n).events, e.ident = n.identifier := by
  unfold processNote
  cases hmeta : (getA (mdateOf n) ((getA n.identifier s.active).getD [])).bind
      Snapshot.meta with
  | some m =>
    simp only [processNoteMeta]
    by_cases hc : (!((getA (mdateOf n) ((getA n.identifier s.active).getD [])).map
          Snapshot.done).getD false || decide (sortStrings m.tags ≠ sortStrings n.tags))
        = true
    · rw [if_pos hc]
      exact fetchStep_ident s n _ _ []
    · rw [if_neg hc]
      exact fun e he => nomatch he
  | none =>
    simp only [processNoteMeta]
    cases hlat : latestSnap ((getA n.identifier s.active).getD []) with
    | none =>
      simp only [processNoteTitle]
      by_cases hc : (!((getA (mdateOf n) ((getA n.identifier s.active).getD [])).map
            Snapshot.done).getD false) = true
      · rw [if_pos hc]
        exact fetchStep_ident s n _ _ []
      · rw [if_neg hc]
        exact fun e he => nomatch he
    | some l =>
      simp only [processNoteTitle]
      cases hlm : l.2.meta with
      | none => exact fun e he => nomatch he
      | some lm =>
        simp only [processNoteTitle2]
        by_cases hc : (!((getA (mdateOf n) ((getA n.identifier s.active).getD [])).map
              Snapshot.done).getD false) = true
        · rw [if_pos hc]
          exact fetchStep_ident s n _ _ _
        · rw [if_neg hc]
          exact fun e he => nomatch he

/-- A note whose expected snapshot carries the completion marker and an
order-insensitively equal tag set is skipped entirely. -/
theorem processNote_skip (s : Store) (n : RemoteNote) (dir : List (String × Snapshot))
    (snap : Snapshot) (m : Meta)
    (hdir : getA n.identifier s.active = some dir)
    (hsnap : getA (mdateOf n) dir = some snap)
    (hdone : snap.done = true)
    (hmeta : snap.meta = some m)
    (htags : sortStrings m.tags = sortStrings n.tags) :
    processNote s n = ⟨s, [], [], false⟩ := by
  unfold processNote
  rw [hdir]
  simp only [Option.getD_some]
  rw [hsnap]
  simp only [Option.some_bind]
  rw [hmeta]
  simp [processNoteMeta, hdone, htags]

/-! ## Main-pass lemmas -/

theorem mainPass_frame (id : String) (dir : List (String × Snapshot)) :
    ∀ (remote : List RemoteNote) (s : Store) (nl : List (String × RemoteNote)),
    getA id s.active = some dir →
    (∀ n' ∈ remote, n'.identifier = id →
      ∃ snap m, getA (mdateOf n') dir = some snap ∧ snap.done = true ∧
        snap.meta = some m ∧ sortStrings m.tags = sortStrings n'.tags) →
    getA id (mainPass s nl remote).store.active = some dir ∧
    (mainPass s nl remote).store.deleted = s.deleted ∧
    ∀ e ∈ (mainPass s nl remote).events, e.ident ≠ id := by
  intro remote
  induction remote with
  | nil =>
    intro s nl hdir _
    exact ⟨hdir, rfl, fun e he => nomatch he⟩
  | cons n rest ih =>
    intro s nl hdir hcond
    simp only [mainPass]
    by_cases hni : n.identifier = id
    · obtain ⟨snap, m, hsnap, hdone, hmeta, htags⟩ := hcond n (by simp) hni
      have hskip : processNote s n = ⟨s, [], [], false⟩ :=
        processNote_skip s n dir snap m (by rw [hni]; exact hdir) hsnap hdone hmeta htags
      rw [hskip]
      rw [if_neg (by simp)]
      obtain ⟨h1, h2, h3⟩ := ih s (setA n.identifier n nl) hdir
        (fun n' hm hid => hcond n' (by simp [hm]) hid)
      exact ⟨h1, h2, fun e he => h3 e (by simpa using he)⟩
    · obtain ⟨ha, hd⟩ := processNote_frame s n id (fun he => hni he.symm)
      have hev : ∀ e ∈ (processNote s n).events, e.ident ≠ id := by
        intro e he hcon
        exact hni (by rw [← processNote_ident s n e he]; exact hcon)
      by_cases hfat : (processNote s n).fatal
      · rw [if_pos hfat]
        exact ⟨by rw [ha]; exact hdir, hd, hev⟩
      · rw [if_neg hfat]
        obtain ⟨h1, h2, h3⟩ := ih (processNote s n).store (setA n.identifier n nl)
          (by rw [ha]; exact hdir) (fun n' hm hid => hcond n' (by simp [hm]) hid)
        refine ⟨h1, by rw [h2, hd], ?_⟩
        intro e he
        rcases List.mem_append.mp (by simpa using he) with h | h
        · exact hev e h
        · exact h3 e h

theorem nlist_inv_setA (nl : List (String × RemoteNote)) (n : RemoteNote)
    (h : ∀ k v, getA k nl = some v → v.identifier = k) :
    ∀ k v, getA k (setA n.identifier n nl) = some v → v.identifier = k := by
  intro k v hget
  by_cases hk : n.identifier = k
  · rw [← hk, getA_setA_self] at hget
    simp only [Option.some.injEq] at hget
    rw [← hget, hk]
  · rw [getA_setA_ne k n.identifier n nl hk] at hget
    exact h k v hget

theorem mainPass_nlist_inv : ∀ (remote : List RemoteNote) (s : Store)
    (nl : List (String × RemoteNote)),
    (∀ k v, getA k nl = some v → v.identifier = k) →
    ∀ k v, getA k (mainPass s nl remote).nlist = some v → v.identifier = k := by
  intro remote
  induction remote with
  | nil => intro s nl h; exact h
  | cons n rest ih =>
    intro s nl h
    simp only [mainPass]
    by_cases hfat : (processNote s n).fatal
    · rw [if_pos hfat]
      exact nlist_inv_setA nl n h
    · rw [if_neg hfat]
      exact ih (processNote s n).store (setA n.identifier n nl) (nlist_inv_setA nl n h)

theorem mainPass_nlist_frame (id : String) : ∀ (remote : List RemoteNote) (s : Store)
    (nl : List (String × RemoteNote)),
    (∀ n' ∈ remote, n'.identifier ≠ id) →
    getA id (mainPass s nl remote).nlist = getA id nl := by
  intro remote
  induction remote with
  | nil => intro s nl _; rfl
  | cons n rest ih =>
    intro s nl h
    simp only [mainPass]
    have hset : getA id (setA n.identifier n nl) = getA id nl :=
      getA_setA_ne id n.identifier n nl (h n (by simp))
    by_cases hfat : (processNote s n).fatal
    · rw [if_pos hfat]
      exact hset
    · rw [if_neg hfat]
      rw [ih (processNote s n).store (setA n.identifier n nl) (fun n' hm => h n' (by simp [hm]))]
      exact hset

/-! ## Backlink-pass lemmas -/

theorem backlinkFetchOne_frame (s : Store) (ident : String) (o : Option RemoteNote)
    (id : String) (hne : ident ≠ id)
    (hids : ∀ n, o = some n → RemoteNote.identifier n = ident) :
    getA id (backlinkFetchOne s ident o).1.active = getA id s.active ∧
    (backlinkFetchOne s ident o).1.deleted = s.deleted ∧
    ∀ e ∈ (backlinkFetchOne s ident o).2.1, e.ident ≠ id := by
  cases o with
  | none => exact ⟨rfl, rfl, fun e he => nomatch he⟩
  | some n =>
    have hidn : RemoteNote.identifier n = ident := hids n rfl
    have hfi : ∀ e' ∈ (fetchNote ((getA (mdateOf n) ((getA ident s.active).getD
        [])).getD Snapshot.empty) n).2.1, WEvent.ident e' = n.identifier :=
      fetchNote_ident _ n
    simp only [backlinkFetchOne]
    by_cases hok : (fetchNote ((getA (mdateOf n) ((getA ident s.active).getD
        [])).getD Snapshot.empty) n).2.2
    · rw [if_pos hok]
      refine ⟨getA_setA_ne id ident _ s.active hne, rfl, ?_⟩
      intro e he
      rcases List.mem_append.mp he with h | h
      · intro hcon
        exact hne (by rw [← hidn, ← hfi e h]; exact hcon)
      · simp only [List.mem_singleton] at h
        subst h
        exact fun hcon => hne hcon
    · rw [if_neg hok]
      refine ⟨getA_setA_ne id ident _ s.active hne, rfl, ?_⟩
      intro e he hcon
      exact hne (by rw [← hidn, ← hfi e he]; exact hcon)

theorem backlinkFetches_frame (id : String) (nl : List (String × RemoteNote))
    (hnl : ∀ k v, getA k nl = some v → RemoteNote.identifier v = k)
    (tch : List String) (ident : String) (hne : ident ≠ id) :
    ∀ (links : List String) (s : Store),
    getA id (backlinkFetches s nl tch ident links).1.active = getA id s.active ∧
    (backlinkFetches s nl tch ident links).1.deleted = s.deleted ∧
    ∀ e ∈ (backlinkFetches s nl tch ident links).2.1, e.ident ≠ id := by
  intro links
  induction links with
  | nil => intro s; exact ⟨rfl, rfl, fun e he => nomatch he⟩
  | cons link rest ih =>
    intro s
    simp only [backlinkFetches]
    by_cases hmem : link ∈ tch
    · rw [if_pos hmem]
      obtain ⟨h1, h2, h3⟩ := backlinkFetchOne_frame s ident (getA ident nl) id hne
        (fun n hn => hnl ident n hn)
      by_cases hfat : (backlinkFetchOne s ident (getA ident nl)).2.2
      · rw [if_pos hfat]
        exact ⟨h1, h2, h3⟩
      · rw [if_neg hfat]
        obtain ⟨g1, g2, g3⟩ := ih (backlinkFetchOne s ident (getA ident nl)).1
        refine ⟨by rw [g1, h1], by rw [g2, h2], ?_⟩
        intro e he
        rcases List.mem_append.mp he with h | h
        · exact h3 e h
        · exact g3 e h
    · rw [if_neg hmem]
      exact ih s

theorem backlinkFetches_no_match (s : Store) (nl : List (String × RemoteNote))
    (tch : List String) (ident : String) :
    ∀ links : List String, (∀ l ∈ links, l ∉ tch) →
    backlinkFetches s nl tch ident links = (s, [], false) := by
  intro links
  induction links with
  | nil => intro _; rfl
  | cons link rest ih =>
    intro h
    simp only [backlinkFetches]
    rw [if_neg (h link (by simp))]
    exact ih (fun l hl => h l (by simp [hl]))

theorem backlinkPass_frame (id : String) (dir : List (String × Snapshot))
    (nl : List (String × RemoteNote))
    (hnl : ∀ k v, getA k nl = some v → RemoteNote.identifier v = k)
    (tch : List String) :
    ∀ (ids : List String) (s : Store), getA id s.active = some dir →
    (id ∈ ids → ∀ t ∈ (dirLinks dir).getD [], t ∉ tch) →
    getA id (backlinkPass s nl tch ids).1.active = some dir ∧
    (backlinkPass s nl tch ids).1.deleted = s.deleted ∧
    ∀ e ∈ (backlinkPass s nl tch ids).2.1, e.ident ≠ id := by
  intro ids
  induction ids with
  | nil => intro s hdir _; exact ⟨hdir, rfl, fun e he => nomatch he⟩
  | cons ident rest ih =>
    intro s hdir hlinksc
    simp only [backlinkPass]
    by_cases hni : ident = id
    · subst hni
      have hlinks : ∀ t ∈ (dirLinks dir).getD [], t ∉ tch := hlinksc (by simp)
      have hl : noteLinks s ident = dirLinks dir := by
        unfold noteLinks
        rw [hdir]
        rfl
      unfold backlinkIdent
      cases hlk : noteLinks s ident with
      | none =>
        simp only [backlinkIdentLinks]
        rw [if_pos trivial]
        exact ⟨hdir, rfl, fun e he => nomatch he⟩
      | some links =>
        simp only [backlinkIdentLinks]
        have hlm : ∀ l ∈ links, l ∉ tch := by
          intro l hml
          apply hlinks
          rw [hl] at hlk
          rw [hlk]
          simpa using hml
        rw [backlinkFetches_no_match s nl tch ident links hlm]
        rw [if_neg (by simp)]
        obtain ⟨g1, g2, g3⟩ := ih s hdir (fun h => hlinksc (by simp [h]))
        exact ⟨g1, g2, fun e he => g3 e (by simpa using he)⟩
    · unfold backlinkIdent
      cases hlk : noteLinks s ident with
      | none =>
        simp only [backlinkIdentLinks]
        rw [if_pos trivial]
        exact ⟨hdir, rfl, fun e he => nomatch he⟩
      | some links =>
        simp only [backlinkIdentLinks]
        obtain ⟨h1, h2, h3⟩ := backlinkFetches_frame id nl hnl tch ident hni links s
        by_cases hfat : (backlinkFetches s nl tch ident links).2.2
        · rw [if_pos hfat]
          exact ⟨by rw [h1]; exact hdir, h2, h3⟩
        · rw [if_neg hfat]
          obtain ⟨g1, g2, g3⟩ := ih (backlinkFetches s nl tch ident links).1
            (by rw [h1]; exact hdir) (fun h => hlinksc (by simp [h]))
          refine ⟨g1, by rw [g2, h2], ?_⟩
          intro e he
          rcases List.mem_append.mp he with h | h
          · exact h3 e h
          · exact g3 e h

/-! ## Key-uniqueness preservation -/

theorem setA_keys_mem {α : Type} (k : String) (v : α) (x : String) :
    ∀ l : List (String × α),
    (x ∈ (setA k v l).map Prod.fst ↔ x = k ∨ x ∈ l.map Prod.fst) := by
  intro l
  induction l with
  | nil => simp [setA]
  | cons e rest ih =>
    obtain ⟨k0, v0⟩ := e
    simp only [setA]
    by_cases h : k0 = k
    · subst h
      rw [if_pos rfl]
      simp only [List.map_cons, List.mem_cons]
      tauto
    · rw [if_neg h]
      simp only [List.map_cons, List.mem_cons, ih]
      tauto

theorem setA_keys_nodup {α : Type} (k : String) (v : α) :
    ∀ l : List (String × α),
    (l.map Prod.fst).Nodup → ((setA k v l).map Prod.fst).Nodup := by
  intro l
  induction l with
  | nil => intro _; simp [setA]
  | cons e rest ih =>
    obtain ⟨k0, v0⟩ := e
    intro h
    simp only [List.map_cons, List.nodup_cons] at h
    simp only [setA]
    by_cases hk : k0 = k
    · rw [if_pos hk]
      simp only [List.map_cons, List.nodup_cons]
      exact ⟨hk ▸ h.1, h.2⟩
    · rw [if_neg hk]
      simp only [List.map_cons, List.nodup_cons]
      refine ⟨?_, ih h.2⟩
      intro hmem
      rcases (setA_keys_mem k v k0 rest).mp hmem with h' | h'
      · exact hk h'
      · exact h.1 h'

theorem fetchStep_keys_nodup (s : Store) (n : RemoteNote)
    (dir : List (String × Snapshot)) (cur : Option Snapshot) (ta : List String)
    (h : (s.active.map Prod.fst).Nodup) :
    ((fetchStep s n dir cur ta).store.active.map Prod.fst).Nodup := by
  simp only [fetchStep]
  by_cases hok : (fetchNote (cur.getD Snapshot.empty) n).2.2
  · rw [if_pos hok]
    exact setA_keys_nodup _ _ s.active h
  · rw [if_neg hok]
    exact setA_keys_nodup _ _ s.active h

theorem processNote_keys_nodup (s : Store) (n : RemoteNote)
    (h : (s.active.map Prod.fst).Nodup) :
    ((processNote s n).store.active.map Prod.fst).Nodup := by
  unfold processNote
  cases hmeta : (getA (mdateOf n) ((getA n.identifier s.active).getD [])).bind
      Snapshot.meta with
  | some m =>
    simp only [processNoteMeta]
    by_cases hc : (!((getA (mdateOf n) ((getA n.identifier s.active).getD [])).map
          Snapshot.done).getD false || decide (sortStrings m.tags ≠ sortStrings n.tags))
        = true
    · rw [if_pos hc]
      exact fetchStep_keys_nodup s n _ _ [] h
    · rw [if_neg hc]
      exact h
  | none =>
    simp only [processNoteMeta]
    cases hlat : latestSnap ((getA n.identifier s.active).getD []) with
    | none =>
      simp only [processNoteTitle]
      by_cases hc : (!((getA (mdateOf n) ((getA n.identifier s.active).getD [])).map
            Snapshot.done).getD false) = true
      · rw [if_pos hc]
        exact fetchStep_keys_nodup s n _ _ [] h
      · rw [if_neg hc]
        exact h
    | some l =>
      simp only [processNoteTitle]
      cases hlm : l.2.meta with
      | none => exact h
      | some lm =>
        simp only [processNoteTitle2]
        by_cases hc : (!((getA (mdateOf n) ((getA n.identifier s.active).getD [])).map
              Snapshot.done).getD false) = true
        · rw [if_pos hc]
          exact fetchStep_keys_nodup s n _ _ _ h
        · rw [if_neg hc]
          exact h

theorem mainPass_keys_nodup : ∀ (remote : List RemoteNote) (s : Store)
    (nl : List (String × RemoteNote)),
    (s.active.map Prod.fst).Nodup →
    ((mainPass s nl remote).store.active.map Prod.fst).Nodup := by
  intro remote
  induction remote with
  | nil => intro s nl h; exact h
  | cons n rest ih =>
    intro s nl h
    simp only [mainPass]
    by_cases hfat : (processNote s n).fatal
    · rw [if_pos hfat]
      exact processNote_keys_nodup s n h
    · rw [if_neg hfat]
      exact ih (processNote s n).store (setA n.identifier n nl)
        (processNote_keys_nodup s n h)

theorem backlinkFetchOne_keys_nodup (s : Store) (ident : String)
    (o : Option RemoteNote) (h : (s.active.map Prod.fst).Nodup) :
    ((backlinkFetchOne s ident o).1.active.map Prod.fst).Nodup := by
  cases o with
  | none => exact h
  | some n =>
    simp only [backlinkFetchOne]
    by_cases hok : (fetchNote ((getA (mdateOf n) ((getA ident s.active).getD
        [])).getD Snapshot.empty) n).2.2
    · rw [if_pos hok]
      exact setA_keys_nodup _ _ s.active h
    · rw [if_neg hok]
      exact setA_keys_nodup _ _ s.active h

theorem backlinkFetches_keys_nodup (nl : List (String × RemoteNote))
    (tch : List String) (ident : String) :
    ∀ (links : List String) (s : Store), (s.active.map Prod.fst).Nodup →
    ((backlinkFetches s nl tch ident links).1.active.map Prod.fst).Nodup := by
  intro links
  induction links with
  | nil => intro s h; exact h
  | cons link rest ih =>
    intro s h
    simp only [backlinkFetches]
    by_cases hmem : link ∈ tch
    · rw [if_pos hmem]
      by_cases hfat : (backlinkFetchOne s ident (getA ident nl)).2.2
      · rw [if_pos hfat]
        exact backlinkFetchOne_keys_nodup s ident _ h
      · rw [if_neg hfat]
        exact ih (backlinkFetchOne s ident (getA ident nl)).1
          (backlinkFetchOne_keys_nodup s ident _ h)
    · rw [if_neg hmem]
      exact ih s h

theorem backlinkPass_keys_nodup (nl : List (String × RemoteNote)) (tch : List String) :
    ∀ (ids : List String) (s : Store), (s.active.map Prod.fst).Nodup →
    ((backlinkPass s nl tch ids).1.active.map Prod.fst).Nodup := by
  intro ids
  induction ids with
  | nil => intro s h; exact h
  | cons ident rest ih =>
    intro s h
    simp only [backlinkPass]
    unfold backlinkIdent
    cases hlk : noteLinks s ident with
    | none =>
      simp only [backlinkIdentLinks]
      rw [if_pos trivial]
      exact h
    | some links =>
      simp only [backlinkIdentLinks]
      by_cases hfat : (backlinkFetches s nl tch ident links).2.2
      · rw [if_pos hfat]
        exact backlinkFetches_keys_nodup nl tch ident links s h
      · rw [if_neg hfat]
        exact ih (backlinkFetches s nl tch ident links).1
          (backlinkFetches_keys_nodup nl tch ident links s h)

/-! ## Deletion-pass lemmas -/

theorem deletionPass_keep (id : String) (activeIds : List String) (hid : id ∈ activeIds) :
    ∀ (entries : List (String × List (String × Snapshot))) (s : Store),
    getA id (deletionPass activeIds entries s).1.active = getA id s.active ∧
    getA id (deletionPass activeIds entries s).1.deleted = getA id s.deleted ∧
    ∀ e ∈ (deletionPass activeIds entries s).2.1, e.ident ≠ id := by
  intro entries
  induction entries with
  | nil => intro s; exact ⟨rfl, rfl, fun e he => nomatch he⟩
  | cons entry rest ih =>
    obtain ⟨name, dirv⟩ := entry
    intro s
    simp only [deletionPass]
    by_cases hn : name ∈ activeIds
    · rw [if_pos hn]
      exact ih s
    · rw [if_neg hn]
      have hne : name ≠ id := fun he => hn (he ▸ hid)
      by_cases hgd : (getA name s.deleted).isSome
      · rw [if_pos hgd]
        exact ih s
      · rw [if_neg hgd]
        obtain ⟨g1, g2, g3⟩ := ih ⟨removeA name s.active, setA name dirv s.deleted⟩
        refine ⟨?_, ?_, ?_⟩
        · rw [g1]
          exact getA_removeA_ne id name s.active hne
        · rw [g2]
          exact getA_setA_ne id name dirv s.deleted hne
        · intro e he
          rcases List.mem_cons.mp he with h | h
          · subst h
            exact fun hcon => hne hcon
          · exact g3 e h

theorem deletionPass_frame_keys (id : String) (activeIds : List String) :
    ∀ (entries : List (String × List (String × Snapshot))) (s : Store),
    (∀ p ∈ entries, p.1 ≠ id) →
    getA id (deletionPass activeIds entries s).1.active = getA id s.active ∧
    getA id (deletionPass activeIds entries s).1.deleted = getA id s.deleted ∧
    ∀ e ∈ (deletionPass activeIds entries s).2.1, e.ident ≠ id := by
  intro entries
  induction entries with
  | nil => intro s _; exact ⟨rfl, rfl, fun e he => nomatch he⟩
  | cons entry rest ih =>
    obtain ⟨name, dirv⟩ := entry
    intro s hk
    have hne : name ≠ id := hk (name, dirv) (by simp)
    have hkr : ∀ p ∈ rest, p.1 ≠ id := fun p hp => hk p (by simp [hp])
    simp only [deletionPass]
    by_cases hn : name ∈ activeIds
    · rw [if_pos hn]
      exact ih s hkr
    · rw [if_neg hn]
      by_cases hgd : (getA name s.deleted).isSome
      · rw [if_pos hgd]
        exact ih s hkr
      · rw [if_neg hgd]
        obtain ⟨g1, g2, g3⟩ := ih ⟨removeA name s.active, setA name dirv s.deleted⟩ hkr
        refine ⟨?_, ?_, ?_⟩
        · rw [g1]
          exact getA_removeA_ne id name s.active hne
        · rw [g2]
          exact getA_setA_ne id name dirv s.deleted hne
        · intro e he
          rcases List.mem_cons.mp he with h | h
          · subst h
            exact fun hcon => hne hcon
          · exact g3 e h

theorem deletionPass_move (id : String) (activeIds : List String)
    (hnot : id ∉ activeIds) :
    ∀ (entries : List (String × List (String × Snapshot))) (s : Store)
      (dirv : List (String × Snapshot)),
    (entries.map Prod.fst).Nodup →
    getA id entries = some dirv →
    getA id s.deleted = none →
    getA id (deletionPass activeIds entries s).1.active = none ∧
    getA id (deletionPass activeIds entries s).1.deleted = some dirv := by
  intro entries
  induction entries with
  | nil => intro s dirv _ hget _; exact absurd hget (by simp [getA])
  | cons entry rest ih =>
    obtain ⟨name, dv⟩ := entry
    intro s dirv hnd hget hdel
    simp only [List.map_cons, List.nodup_cons] at hnd
    simp only [deletionPass]
    by_cases hn : name = id
    · subst hn
      have hdv : dv = dirv := by
        unfold getA at hget
        rw [if_pos rfl] at hget
        exact Option.some.inj hget
      subst hdv
      rw [if_neg hnot]
      rw [if_neg (by simp [hdel])]
      have hkr : ∀ p ∈ rest, p.1 ≠ name := by
        intro p hp hcon
        exact hnd.1 (hcon ▸ List.mem_map_of_mem Prod.fst hp)
      obtain ⟨g1, g2, g3⟩ := deletionPass_frame_keys name activeIds rest
        ⟨removeA name s.active, setA name dv s.deleted⟩ hkr
      refine ⟨?_, ?_⟩
      · rw [g1]
        exact getA_removeA_self name s.active
      · rw [g2]
        exact getA_setA_self name dv s.deleted
    · have hget' : getA id rest = some dirv := by
        unfold getA at hget
        rwa [if_neg hn] at hget
      by_cases hact : name ∈ activeIds
      · rw [if_pos hact]
        exact ih s dirv hnd.2 hget' hdel
      · rw [if_neg hact]
        by_cases hgd : (getA name s.deleted).isSome
        · rw [if_pos hgd]
          exact ih s dirv hnd.2 hget' hdel
        · rw [if_neg hgd]
          refine ih ⟨removeA name s.active, setA name dv s.deleted⟩ dirv hnd.2 hget' ?_
          rw [getA_setA_ne id name dv s.deleted hn]
          exact hdel

theorem deletionPass_dup (id : String) (activeIds : List String)
    (hnot : id ∉ activeIds) :
    ∀ (entries : List (String × List (String × Snapshot))) (s : Store),
    (entries.map Prod.fst).Nodup →
    (getA id entries).isSome →
    (getA id s.deleted).isSome →
    getA id (deletionPass activeIds entries s).1.active = getA id s.active ∧
    getA id (deletionPass activeIds entries s).1.deleted = getA id s.deleted ∧
    dupMsg id ∈ (deletionPass activeIds entries s).2.2 ∧
    ∀ e ∈ (deletionPass activeIds entries s).2.1, e.ident ≠ id := by
  intro entries
  induction entries with
  | nil => intro s _ hget _; exact absurd hget (by simp [getA])
  | cons entry rest ih =>
    obtain ⟨name, dv⟩ := entry
    intro s hnd hget hdel
    simp only [List.map_cons, List.nodup_cons] at hnd
    simp only [deletionPass]
    by_cases hn : name = id
    · subst hn
      rw [if_neg hnot]
      rw [if_pos hdel]
      have hkr : ∀ p ∈ rest, p.1 ≠ name := by
        intro p hp hcon
        exact hnd.1 (hcon ▸ List.mem_map_of_mem Prod.fst hp)
      obtain ⟨g1, g2, g3⟩ := deletionPass_frame_keys name activeIds rest s hkr
      exact ⟨g1, g2, by simp, g3⟩
    · have hget' : (getA id rest).isSome := by
        unfold getA at hget
        rwa [if_neg hn] at hget
      by_cases hact : name ∈ activeIds
      · rw [if_pos hact]
        exact ih s hnd.2 hget' hdel
      · rw [if_neg hact]
        by_cases hgd : (getA name s.deleted).isSome
        · rw [if_pos hgd]
          obtain ⟨g1, g2, g3, g4⟩ := ih s hnd.2 hget' hdel
          exact ⟨g1, g2, by simp [g3], g4⟩
        · rw [if_neg hgd]
          have hdel' : (getA id (setA name dv s.deleted)).isSome := by
            rw [getA_setA_ne id name dv s.deleted hn]
            exact hdel
          obtain ⟨g1, g2, g3, g4⟩ := ih ⟨removeA name s.active, setA name dv s.deleted⟩
            hnd.2 hget' hdel'
          refine ⟨?_, ?_, g3, ?_⟩
          · rw [g1]
            exact getA_removeA_ne id name s.active hn
          · rw [g2]
            exact getA_setA_ne id name dv s.deleted hn
          · intro e he
            rcases List.mem_cons.mp he with h | h
            · subst h
              exact fun hcon => hn hcon
            · exact g4 e h

/-! ## Phase-assembly lemmas -/

theorem syncAfterBacklink_titleChanged (ids : List String) (p : PassState)
    (b : Store × List WEvent × Bool) :
    (syncAfterBacklink ids p b).titleChanged = p.titleChanged := by
  unfold syncAfterBacklink
  by_cases h : b.2.2 <;> simp [h]

theorem syncAfterMain_titleChanged (remote : List RemoteNote) (p : PassState) :
    (syncAfterMain remote p).titleChanged = p.titleChanged := by
  unfold syncAfterMain
  by_cases h : p.fatal <;> simp [h, syncAfterBacklink_titleChanged]

theorem synchronise_titleChanged (remote : List RemoteNote) (s : Store) :
    (synchronise remote s).titleChanged = (mainPass s [] remote).titleChanged :=
  syncAfterMain_titleChanged remote (mainPass s [] remote)

theorem syncAfterBacklink_nlist (ids : List String) (p : PassState)
    (b : Store × List WEvent × Bool) :
    (syncAfterBacklink ids p b).nlist = p.nlist := by
  unfold syncAfterBacklink
  by_cases h : b.2.2 <;> simp [h]

theorem synchronise_nlist (remote : List RemoteNote) (s : Store) :
    (synchronise remote s).nlist = (mainPass s [] remote).nlist := by
  unfold synchronise syncAfterMain
  by_cases h : (mainPass s [] remote).fatal <;> simp [h, syncAfterBacklink_nlist]

/-! ## Claim C6 -/

/-- C6: for any input line containing an opening `[[` delimiter with no
matching `]]` closing delimiter later on the same line, link extraction
halts fatally (models `sys.exit()`) and never returns a set of extracted
titles, partial or otherwise. -/
theorem claim_C6_unterminated_link_fatal (lines : List (List Char)) (l : List Char)
    (hl : l ∈ lines) (hu : unmatchedOpen l = true) :
    linksAll lines [] = .error () :=
  linksAll_error lines l hl hu []

/-- Witness for C6 at a concrete malformed line. -/
theorem claim_C6_witness :
    "see [[Oops".data ∈ ["see [[Oops".data] ∧ unmatchedOpen "see [[Oops".data = true ∧
    linksAll ["see [[Oops".data] [] = .error () :=
  ⟨by decide, by decide,
    claim_C6_unterminated_link_fatal ["see [[Oops".data] "see [[Oops".data (by decide) (by decide)⟩

/-! ## Claim C7 -/

/-- C7: for every well-formed input (every `[[` matched by a later `]]`
on the same line) extraction returns the target titles with no
duplicates; and on the line `"see [[Project Plan]] and [[Budget]]"` it
returns exactly `"Project Plan"` then `"Budget"`, in first-seen order. -/
theorem claim_C7_wellformed_extraction :
    (∀ lines : List (List Char), (∀ l ∈ lines, unmatchedOpen l = false) →
      ∃ out, linksAll lines [] = .ok out ∧ out.Nodup) ∧
    linksAll ["see [[Project Plan]] and [[Budget]]".data] [] =
      .ok ["Project Plan".data, "Budget".data] :=
  ⟨fun lines h => linksAll_ok lines h [] (by simp), rfl⟩

/-- Witness for C7 at a concrete well-formed line. -/
theorem claim_C7_witness :
    (∀ l ∈ ["a [[B]] c".data], unmatchedOpen l = false) ∧
    ∃ out, linksAll ["a [[B]] c".data] [] = .ok out ∧ out.Nodup :=
  ⟨by decide, claim_C7_wellformed_extraction.1 ["a [[B]] c".data] (by decide)⟩

/-! ## Claim C10 -/

/-- C10: for an identifier with no snapshot directory in the active
area, `note_contents` and `note_links` hit the unguarded
`note_dates[-1]` of an empty listing — modelled as `none` — rather than
returning an empty result: they require at least one snapshot. -/
theorem claim_C10_accessors_need_snapshot (s : Store) (id : String)
    (h : getA id s.active = none ∨ getA id s.active = some []) :
    noteContents s id = none ∧ noteLinks s id = none := by
  rcases h with h | h <;>
    simp [noteContents, noteLinks, dirContents, dirLinks, h, latestSnap]

/-- Witness for C10 on the empty store. -/
theorem claim_C10_witness :
    (getA "Z" (Store.mk [] []).active = none ∨ getA "Z" (Store.mk [] []).active = some []) ∧
    noteContents ⟨[], []⟩ "Z" = none ∧ noteLinks ⟨[], []⟩ "Z" = none :=
  ⟨Or.inl (by decide), claim_C10_accessors_need_snapshot ⟨[], []⟩ "Z" (Or.inl (by decide))⟩

/-! ## Claim C2 (code bug) -/

/-- C2 fails on the code: when a previous fetch was interrupted right
after the snapshot directory was created but before `note.json` was
written, the next pass crashes with an uncaught FileNotFoundError while
reading `note_dates[-1]/"note.json"` in the title-comparison branch
(line 144), instead of re-fetching the marker-less snapshot: no write
event is performed at all. -/
theorem claim_C2_partial_fetch_crash :
    (synchronise [⟨"X", "Title", [], "T2", []⟩]
      ⟨[("X", [("T2", Snapshot.empty)])], []⟩).fatal = true ∧
    (synchronise [⟨"X", "Title", [], "T2", []⟩]
      ⟨[("X", [("T2", Snapshot.empty)])], []⟩).events = [] := by decide

/-! ## Claim C5 counterexample -/

/-- C5 as stated is false: in this run the title `"Old"` is recorded as
changed, yet a fresh snapshot IS written for the note this pass (its
completion marker is touched at the new timestamp), contradicting the
claim that recording happens exactly in the no-fresh-snapshot (skip)
case. -/
theorem claim_C5_counterexample :
    (synchronise [⟨"X", "New", [], "T2", []⟩]
      ⟨[("X", [("T1", ⟨some ⟨"Old", []⟩, some [], [], true⟩)])], []⟩).titleChanged = ["Old"] ∧
    WEvent.touchDone "X" "T2" ∈
      (synchronise [⟨"X", "New", [], "T2", []⟩]
        ⟨[("X", [("T1", ⟨some ⟨"Old", []⟩, some [], [], true⟩)])], []⟩).events := by decide

/-! ## Claim C4 counterexample -/

/-- C4 as stated is false: for a note whose first content line
references an attachment and which has a second line, the attachment
copy happens before the second text line is written, so the trace is not
metadata-then-all-text-then-all-attachments-then-marker. -/
theorem claim_C4_counterexample :
    (processNote ⟨[], []⟩ ⟨"X", "T", [], "T1", ["a [file:ab12/pic.pdf] x", "plain"]⟩).events ≠
      claimedFetchOrder ⟨"X", "T", [], "T1", ["a [file:ab12/pic.pdf] x", "plain"]⟩ := by decide

/-! ## Claim C4 amended -/

/-- C4 amended: whenever the synchroniser fetches a note (and the
fetch's own assertion cannot fire), the writes occur in this order:
metadata JSON first, then for each content line in order the line
followed by the attachments referenced on that line, with the completion
marker as the final write — the marker is never written before all
other writes for the snapshot have completed. -/
theorem claim_C4_amended_marker_last (s : Store) (n : RemoteNote)
    (dir : List (String × Snapshot)) (cur : Option Snapshot) (ta : List String)
    (hok : noReservedAtt n = true) :
    (fetchStep s n dir cur ta).events = perLineFetchOrder n ∧
    (fetchStep s n dir cur ta).events.getLast? =
      some (WEvent.touchDone n.identifier (mdateOf n)) ∧
    ∀ e ∈ (fetchStep s n dir cur ta).events.dropLast,
      e ≠ WEvent.touchDone n.identifier (mdateOf n) := by
  rw [fetchStep_no_reserved s n dir cur ta hok]
  refine ⟨rfl, ?_, ?_⟩
  · show (perLineFetchOrder n).getLast? = _
    rw [perLineFetchOrder_concat]
    exact List.getLast?_concat _
  · show ∀ e ∈ (perLineFetchOrder n).dropLast, _
    rw [perLineFetchOrder_concat, List.dropLast_concat]
    exact perLineFetchOrder_no_early_done n

/-- Witness for the amended C4 at a concrete two-line note with an
attachment on the first line. -/
theorem claim_C4_amended_witness :
    noReservedAtt ⟨"X", "T", [], "T1", ["a [file:ab12/pic.pdf] x", "plain"]⟩ = true ∧
    (fetchStep ⟨[], []⟩ ⟨"X", "T", [], "T1", ["a [file:ab12/pic.pdf] x", "plain"]⟩
      [] none []).events =
      perLineFetchOrder ⟨"X", "T", [], "T1", ["a [file:ab12/pic.pdf] x", "plain"]⟩ :=
  ⟨by decide, (claim_C4_amended_marker_last ⟨[], []⟩ _ [] none [] (by decide)).1⟩

/-! ## Claim C1 -/

/-- C1: a note whose stored snapshot at the (unchanged) remote
modification timestamp records a tag set differing order-insensitively
from the remote tag set is fetched and persisted anew at that same
timestamp value instead of being skipped — stated on the per-note step
of `synchronise`'s main pass, assuming the fetch's own assertion cannot
fire. -/
theorem claim_C1_tag_change_refetch (s : Store) (n : RemoteNote) (m : Meta)
    (hm : (getA (mdateOf n) ((getA n.identifier s.active).getD [])).bind Snapshot.meta
      = some m)
    (ht : sortStrings m.tags ≠ sortStrings n.tags)
    (hok : noReservedAtt n = true) :
    (processNote s n).fatal = false ∧
    (processNote s n).events = perLineFetchOrder n ∧
    ∃ snap, getA (mdateOf n)
        ((getA n.identifier (processNote s n).store.active).getD []) = some snap ∧
      snap.meta = some ⟨n.title, n.tags⟩ ∧ snap.content = some n.content ∧
      snap.done = true := by
  have hpn : processNote s n =
      fetchStep s n ((getA n.identifier s.active).getD [])
        (getA (mdateOf n) ((getA n.identifier s.active).getD [])) [] := by
    unfold processNote
    rw [hm]
    simp only [processNoteMeta]
    rw [decide_eq_true ht, Bool.or_true, if_pos rfl]
  rw [hpn, fetchStep_no_reserved s n _ _ [] hok]
  refine ⟨rfl, rfl, ?_⟩
  show ∃ snap, getA (mdateOf n) ((getA n.identifier (setA n.identifier _ s.active)).getD [])
    = some snap ∧ _
  rw [getA_setA_self]
  simp only [Option.getD_some]
  rw [getA_setA_self]
  exact ⟨_, rfl, rfl, rfl, rfl⟩

/-- Witness for C1: a snapshot at the same timestamp `T1` with tags
`["a"]` against remote tags `[]` is re-fetched. -/
theorem claim_C1_witness :
    ((getA "T1" ((getA "X" (Store.mk
        [("X", [("T1", ⟨some ⟨"T", ["a"]⟩, some [], [], true⟩)])] []).active).getD
        [])).bind Snapshot.meta = some ⟨"T", ["a"]⟩) ∧
    sortStrings (Meta.mk "T" ["a"]).tags ≠ sortStrings ([] : List String) ∧
    (processNote ⟨[("X", [("T1", ⟨some ⟨"T", ["a"]⟩, some [], [], true⟩)])], []⟩
      ⟨"X", "T", [], "T1", []⟩).events = perLineFetchOrder ⟨"X", "T", [], "T1", []⟩ :=
  ⟨by decide, by decide,
    (claim_C1_tag_change_refetch
      ⟨[("X", [("T1", ⟨some ⟨"T", ["a"]⟩, some [], [], true⟩)])], []⟩
      ⟨"X", "T", [], "T1", []⟩ ⟨"T", ["a"]⟩ (by decide) (by decide) (by decide)).2.1⟩

/-! ## Claim C5 amended -/

/-- Helper: `fetchStep` passes the recorded-title list through
unchanged. -/
theorem fetchStep_titleAdd (s : Store) (n : RemoteNote)
    (dir : List (String × Snapshot)) (cur : Option Snapshot) (ta : List String) :
    (fetchStep s n dir cur ta).titleAdd = ta := by
  unfold fetchStep
  by_cases h : (fetchNote (cur.getD Snapshot.empty) n).2.2
  · simp [h]
  · simp [h]

/-- Helper: the title-branch step with a readable latest metadata file
records the old title exactly when it differs. -/
theorem processNoteTitle2_titleAdd (s : Store) (n : RemoteNote)
    (dir : List (String × Snapshot)) (cur : Option Snapshot) (lm : Meta) :
    (processNoteTitle2 s n dir cur (some lm)).titleAdd =
      if lm.title ≠ n.title then [lm.title] else [] := by
  unfold processNoteTitle2
  by_cases hc : (!(cur.map Snapshot.done).getD false) = true
  · simp only [hc, if_true, fetchStep_titleAdd]
  · simp only [Bool.not_eq_true] at hc
    simp [hc]

/-- C5 amended: a title is recorded as changed for a note exactly when
no metadata file exists at the expected new-timestamp path while the
identifier has a latest existing snapshot whose (readable) metadata
title differs from the just-observed remote title — in the code this is
the must-fetch branch for a new timestamp, not the skip case. -/
theorem claim_C5_amended_title_change (s : Store) (n : RemoteNote) (t : String) :
    (processNote s n).titleAdd = [t] ↔
      ((getA (mdateOf n) ((getA n.identifier s.active).getD [])).bind Snapshot.meta
          = none ∧
        ∃ l, latestSnap ((getA n.identifier s.active).getD []) = some l ∧
          ∃ lm, l.2.meta = some lm ∧ lm.title ≠ n.title ∧ t = lm.title) := by
  unfold processNote
  cases hmeta : (getA (mdateOf n) ((getA n.identifier s.active).getD [])).bind
      Snapshot.meta with
  | some m =>
    simp only [processNoteMeta]
    constructor
    · intro h
      by_cases hc : (!((getA (mdateOf n) ((getA n.identifier s.active).getD [])).map
            Snapshot.done).getD false || decide (sortStrings m.tags ≠ sortStrings n.tags))
          = true
      · rw [if_pos hc, fetchStep_titleAdd] at h
        exact absurd h (by simp)
      · rw [if_neg hc] at h
        exact absurd h (by simp)
    · rintro ⟨h, -⟩
      simp at h
  | none =>
    simp only [processNoteMeta]
    cases hlat : latestSnap ((getA n.identifier s.active).getD []) with
    | none =>
      simp only [processNoteTitle]
      constructor
      · intro h
        by_cases hc : (!((getA (mdateOf n) ((getA n.identifier s.active).getD [])).map
              Snapshot.done).getD false) = true
        · rw [if_pos hc, fetchStep_titleAdd] at h
          exact absurd h (by simp)
        · rw [if_neg hc] at h
          exact absurd h (by simp)
      · rintro ⟨-, l, hl, -⟩
        simp at hl
    | some l =>
      simp only [processNoteTitle]
      cases hlm : l.2.meta with
      | none =>
        simp only [processNoteTitle2]
        constructor
        · intro h
          exact absurd h (by simp)
        · rintro ⟨-, l', hl', lm', hlm', -⟩
          simp only [Option.some.injEq] at hl'
          rw [← hl', hlm] at hlm'
          simp at hlm'
      | some lm =>
        rw [processNoteTitle2_titleAdd]
        simp only [Option.some.injEq, true_and]
        constructor
        · intro h
          by_cases hne : lm.title = n.title
          · rw [if_neg (by simp [hne])] at h
            simp at h
          · rw [if_pos hne] at h
            simp only [List.cons.injEq, and_true] at h
            exact ⟨l, rfl, lm, hlm, hne, h.symm⟩
        · rintro ⟨l', hl', lm', hlm', hne, hteq⟩
          rw [← hl', hlm] at hlm'
          simp only [Option.some.injEq] at hlm'
          rw [← hlm'] at hne
          rw [if_pos hne, hteq, hlm']

/-! ## Claim C3 counterexample -/

/-- C3 as stated is false: note `A` has a completion marker at its
current timestamp and an unchanged tag set, yet `synchronise` performs
write operations for `A` — the backlink-repair pass re-fetches it
because its latest snapshot links to the title `"Old"`, which changed
this pass. -/
theorem claim_C3_counterexample :
    (getA "TA" ((getA "A" (Store.mk
        [("A", [("TA", ⟨some ⟨"A", []⟩, some ["see [[Old]]"], [], true⟩)]),
         ("B", [("T1", ⟨some ⟨"Old", []⟩, some [], [], true⟩)])] []).active).getD [])).map
        Snapshot.done = some true ∧
    WEvent.touchDone "A" "TA" ∈
      (synchronise
        [⟨"A", "A", [], "TA", ["see [[Old]]"]⟩, ⟨"B", "New", [], "T2", []⟩]
        ⟨[("A", [("TA", ⟨some ⟨"A", []⟩, some ["see [[Old]]"], [], true⟩)]),
          ("B", [("T1", ⟨some ⟨"Old", []⟩, some [], [], true⟩)])], []⟩).events := by decide

/-! ## Claim C3 amended -/

/-- C3 amended: for a note in the remote list (identifiers unique, per
the data-model invariant) whose expected snapshot directory carries the
completion marker and whose recorded tag set equals the remote tag set
order-insensitively, and whose latest stored snapshot extracts no
wiki-link to a title recorded as changed this pass, `synchronise`
performs no write operations for that note and leaves its snapshot
directory (files and marker) unchanged. -/
theorem claim_C3_amended_no_writes (remote : List RemoteNote) (s : Store)
    (n : RemoteNote) (dir : List (String × Snapshot)) (snap : Snapshot) (m : Meta)
    (hmem : n ∈ remote)
    (hnodup : (remote.map RemoteNote.identifier).Nodup)
    (hdir : getA n.identifier s.active = some dir)
    (hsnap : getA (mdateOf n) dir = some snap)
    (hdone : snap.done = true)
    (hmeta : snap.meta = some m)
    (htags : sortStrings m.tags = sortStrings n.tags)
    (hlinks : ∀ t ∈ (dirLinks dir).getD [], t ∉ (synchronise remote s).titleChanged) :
    (∀ e ∈ (synchronise remote s).events, e.ident ≠ n.identifier) ∧
    getA n.identifier (synchronise remote s).store.active = some dir := by
  have hcond : ∀ n' ∈ remote, n'.identifier = n.identifier →
      ∃ snap' m', getA (mdateOf n') dir = some snap' ∧ snap'.done = true ∧
        snap'.meta = some m' ∧ sortStrings m'.tags = sortStrings n'.tags := by
    intro n' hm' hid
    have heq : n' = n := List.inj_on_of_nodup_map hnodup hm' hmem hid
    subst heq
    exact ⟨snap, m, hsnap, hdone, hmeta, htags⟩
  obtain ⟨m1, m2, m3⟩ := mainPass_frame n.identifier dir remote s [] hdir hcond
  have hlinks2 : ∀ t ∈ (dirLinks dir).getD [],
      t ∉ (mainPass s [] remote).titleChanged := by
    intro t ht
    have := hlinks t ht
    rwa [synchronise_titleChanged remote s] at this
  have hnl : ∀ k v, getA k (mainPass s [] remote).nlist = some v →
      RemoteNote.identifier v = k :=
    mainPass_nlist_inv remote s [] (fun k v h => nomatch h)
  unfold synchronise syncAfterMain
  by_cases hf1 : (mainPass s [] remote).fatal
  · rw [if_pos hf1]
    exact ⟨m3, m1⟩
  · rw [if_neg hf1]
    obtain ⟨b1, b2, b3⟩ := backlinkPass_frame n.identifier dir
      (mainPass s [] remote).nlist hnl (mainPass s [] remote).titleChanged
      (remote.map (fun x => x.identifier)) (mainPass s [] remote).store m1
      (fun _ => hlinks2)
    unfold syncAfterBacklink
    by_cases hf2 : (backlinkPass (mainPass s [] remote).store (mainPass s [] remote).nlist
        (mainPass s [] remote).titleChanged (remote.map (fun x => x.identifier))).2.2
    · rw [if_pos hf2]
      refine ⟨?_, b1⟩
      intro e he
      rcases List.mem_append.mp he with h | h
      · exact m3 e h
      · exact b3 e h
    · rw [if_neg hf2]
      have hidin : n.identifier ∈ remote.map (fun x => x.identifier) :=
        List.mem_map_of_mem _ hmem
      obtain ⟨d1, d2, d3⟩ := deletionPass_keep n.identifier
        (remote.map (fun x => x.identifier)) hidin
        (backlinkPass (mainPass s [] remote).store (mainPass s [] remote).nlist
          (mainPass s [] remote).titleChanged (remote.map (fun x => x.identifier))).1.active
        (backlinkPass (mainPass s [] remote).store (mainPass s [] remote).nlist
          (mainPass s [] remote).titleChanged (remote.map (fun x => x.identifier))).1
      refine ⟨?_, by rw [d1]; exact b1⟩
      intro e he
      rcases List.mem_append.mp he with h | h
      · rcases List.mem_append.mp h with h2 | h2
        · exact m3 e h2
        · exact b3 e h2
      · exact d3 e h

/-- Witness for the amended C3: a run with a changed title where the
skipped note links to an unrelated title only. -/
theorem claim_C3_amended_witness :
    (∀ e ∈ (synchronise
        [⟨"A", "A", [], "TA", ["see [[Other]]"]⟩, ⟨"B", "New", [], "T2", []⟩]
        ⟨[("A", [("TA", ⟨some ⟨"A", []⟩, some ["see [[Other]]"], [], true⟩)]),
          ("B", [("T1", ⟨some ⟨"Old", []⟩, some [], [], true⟩)])], []⟩).events,
      e.ident ≠ "A") ∧
    getA "A" (synchronise
        [⟨"A", "A", [], "TA", ["see [[Other]]"]⟩, ⟨"B", "New", [], "T2", []⟩]
        ⟨[("A", [("TA", ⟨some ⟨"A", []⟩, some ["see [[Other]]"], [], true⟩)]),
          ("B", [("T1", ⟨some ⟨"Old", []⟩, some [], [], true⟩)])], []⟩).store.active =
      some [("TA", ⟨some ⟨"A", []⟩, some ["see [[Other]]"], [], true⟩)] :=
  claim_C3_amended_no_writes
    [⟨"A", "A", [], "TA", ["see [[Other]]"]⟩, ⟨"B", "New", [], "T2", []⟩]
    ⟨[("A", [("TA", ⟨some ⟨"A", []⟩, some ["see [[Other]]"], [], true⟩)]),
      ("B", [("T1", ⟨some ⟨"Old", []⟩, some [], [], true⟩)])], []⟩
    ⟨"A", "A", [], "TA", ["see [[Other]]"]⟩
    [("TA", ⟨some ⟨"A", []⟩, some ["see [[Other]]"], [], true⟩)]
    ⟨some ⟨"A", []⟩, some ["see [[Other]]"], [], true⟩ ⟨"A", []⟩
    (by decide) (by decide) (by decide) (by decide) (by decide) (by decide) (by decide)
    (by decide)

/-! ## Claim C8 -/

/-- C8: an identifier directory present in the active backup area but
absent from the current remote note list (and not yet present in the
deleted area) is moved with its entire snapshot history to the deleted
area, and `note_exists` returns false for it after the pass completes
(key uniqueness of the active-area listing is a directory invariant). -/
theorem claim_C8_deletion (remote : List RemoteNote) (s : Store) (id : String)
    (dir : List (String × Snapshot))
    (hfat : (synchronise remote s).fatal = false)
    (hdir : getA id s.active = some dir)
    (hnotin : id ∉ remote.map (fun x => x.identifier))
    (hdel : getA id s.deleted = none)
    (hnodup : (s.active.map Prod.fst).Nodup) :
    getA id (synchronise remote s).store.active = none ∧
    getA id (synchronise remote s).store.deleted = some dir ∧
    noteExists (synchronise remote s) id = false := by
  have hnid : ∀ n' ∈ remote, n'.identifier ≠ id := by
    intro n' hm hcon
    exact hnotin (List.mem_map.mpr ⟨n', hm, hcon⟩)
  obtain ⟨m1, m2, m3⟩ := mainPass_frame id dir remote s [] hdir
    (fun n' hm hid => absurd hid (hnid n' hm))
  have hnl : ∀ k v, getA k (mainPass s [] remote).nlist = some v →
      RemoteNote.identifier v = k :=
    mainPass_nlist_inv remote s [] (fun k v h => nomatch h)
  have hnex : noteExists (synchronise remote s) id = false := by
    unfold noteExists
    rw [synchronise_nlist remote s, mainPass_nlist_frame id remote s [] hnid]
    rfl
  have hstore : getA id (synchronise remote s).store.active = none ∧
      getA id (synchronise remote s).store.deleted = some dir := by
    unfold synchronise syncAfterMain at hfat ⊢
    by_cases hf1 : (mainPass s [] remote).fatal
    · rw [if_pos hf1] at hfat
      exact absurd hfat (by simp)
    · rw [if_neg hf1] at hfat ⊢
      obtain ⟨b1, b2, b3⟩ := backlinkPass_frame id dir (mainPass s [] remote).nlist hnl
        (mainPass s [] remote).titleChanged (remote.map (fun n => n.identifier))
        (mainPass s [] remote).store m1 (fun hin => absurd hin hnotin)
      unfold syncAfterBacklink at hfat ⊢
      by_cases hf2 : (backlinkPass (mainPass s [] remote).store
          (mainPass s [] remote).nlist (mainPass s [] remote).titleChanged
          (remote.map (fun n => n.identifier))).2.2
      · rw [if_pos hf2] at hfat
        exact absurd hfat (by simp)
      · rw [if_neg hf2] at hfat ⊢
        have hnd2 : (((backlinkPass (mainPass s [] remote).store
            (mainPass s [] remote).nlist (mainPass s [] remote).titleChanged
            (remote.map (fun n => n.identifier))).1.active).map Prod.fst).Nodup :=
          backlinkPass_keys_nodup (mainPass s [] remote).nlist
            (mainPass s [] remote).titleChanged (remote.map (fun n => n.identifier))
            (mainPass s [] remote).store (mainPass_keys_nodup remote s [] hnodup)
        have hbdel : getA id (backlinkPass (mainPass s [] remote).store
            (mainPass s [] remote).nlist (mainPass s [] remote).titleChanged
            (remote.map (fun n => n.identifier))).1.deleted = none := by
          rw [b2, m2]
          exact hdel
        exact deletionPass_move id (remote.map (fun n => n.identifier)) hnotin
          (backlinkPass (mainPass s [] remote).store (mainPass s [] remote).nlist
            (mainPass s [] remote).titleChanged
            (remote.map (fun n => n.identifier))).1.active
          (backlinkPass (mainPass s [] remote).store (mainPass s [] remote).nlist
            (mainPass s [] remote).titleChanged
            (remote.map (fun n => n.identifier))).1
          dir hnd2 b1 hbdel
  exact ⟨hstore.1, hstore.2, hnex⟩

/-- Witness for C8: identifier `Y` is in the active area but not in the
remote list; its whole history moves to the deleted area. -/
theorem claim_C8_witness :
    (synchronise [⟨"X", "T", [], "T1", []⟩]
      ⟨[("X", [("T1", ⟨some ⟨"T", []⟩, some [], [], true⟩)]),
        ("Y", [("T0", ⟨some ⟨"G", []⟩, some [], [], true⟩)])], []⟩).fatal = false ∧
    getA "Y" (synchronise [⟨"X", "T", [], "T1", []⟩]
      ⟨[("X", [("T1", ⟨some ⟨"T", []⟩, some [], [], true⟩)]),
        ("Y", [("T0", ⟨some ⟨"G", []⟩, some [], [], true⟩)])],
      []⟩).store.active = none ∧
    getA "Y" (synchronise [⟨"X", "T", [], "T1", []⟩]
      ⟨[("X", [("T1", ⟨some ⟨"T", []⟩, some [], [], true⟩)]),
        ("Y", [("T0", ⟨some ⟨"G", []⟩, some [], [], true⟩)])],
      []⟩).store.deleted = some [("T0", ⟨some ⟨"G", []⟩, some [], [], true⟩)] ∧
    noteExists (synchronise [⟨"X", "T", [], "T1", []⟩]
      ⟨[("X", [("T1", ⟨some ⟨"T", []⟩, some [], [], true⟩)]),
        ("Y", [("T0", ⟨some ⟨"G", []⟩, some [], [], true⟩)])], []⟩) "Y" = false :=
  ⟨by decide,
    claim_C8_deletion [⟨"X", "T", [], "T1", []⟩]
      ⟨[("X", [("T1", ⟨some ⟨"T", []⟩, some [], [], true⟩)]),
        ("Y", [("T0", ⟨some ⟨"G", []⟩, some [], [], true⟩)])], []⟩ "Y"
      [("T0", ⟨some ⟨"G", []⟩, some [], [], true⟩)]
      (by decide) (by decide) (by decide) (by decide) (by decide)⟩

/-! ## Claim C9 -/

/-- C9: when the deleted area already holds an entry for an identifier
that should be moved, the anomaly is logged but non-fatal: the move is
skipped, the deleted-area entry is not overwritten, the active copy
stays in place, and no write event touches that identifier. -/
theorem claim_C9_duplicate_deletion (remote : List RemoteNote) (s : Store) (id : String)
    (adir ddir : List (String × Snapshot))
    (hfat : (synchronise remote s).fatal = false)
    (hdir : getA id s.active = some adir)
    (hnotin : id ∉ remote.map (fun x => x.identifier))
    (hdel : getA id s.deleted = some ddir)
    (hnodup : (s.active.map Prod.fst).Nodup) :
    dupMsg id ∈ (synchronise remote s).log ∧
    getA id (synchronise remote s).store.active = some adir ∧
    getA id (synchronise remote s).store.deleted = some ddir ∧
    ∀ e ∈ (synchronise remote s).events, e.ident ≠ id := by
  have hnid : ∀ n' ∈ remote, n'.identifier ≠ id := by
    intro n' hm hcon
    exact hnotin (List.mem_map.mpr ⟨n', hm, hcon⟩)
  obtain ⟨m1, m2, m3⟩ := mainPass_frame id adir remote s [] hdir
    (fun n' hm hid => absurd hid (hnid n' hm))
  have hnl : ∀ k v, getA k (mainPass s [] remote).nlist = some v →
      RemoteNote.identifier v = k :=
    mainPass_nlist_inv remote s [] (fun k v h => nomatch h)
  unfold synchronise syncAfterMain at hfat ⊢
  by_cases hf1 : (mainPass s [] remote).fatal
  · rw [if_pos hf1] at hfat
    exact absurd hfat (by simp)
  · rw [if_neg hf1] at hfat ⊢
    obtain ⟨b1, b2, b3⟩ := backlinkPass_frame id adir (mainPass s [] remote).nlist hnl
      (mainPass s [] remote).titleChanged (remote.map (fun n => n.identifier))
      (mainPass s [] remote).store m1 (fun hin => absurd hin hnotin)
    unfold syncAfterBacklink at hfat ⊢
    by_cases hf2 : (backlinkPass (mainPass s [] remote).store
        (mainPass s [] remote).nlist (mainPass s [] remote).titleChanged
        (remote.map (fun n => n.identifier))).2.2
    · rw [if_pos hf2] at hfat
      exact absurd hfat (by simp)
    · rw [if_neg hf2] at hfat ⊢
      have hnd2 : (((backlinkPass (mainPass s [] remote).store
          (mainPass s [] remote).nlist (mainPass s [] remote).titleChanged
          (remote.map (fun n => n.identifier))).1.active).map Prod.fst).Nodup :=
        backlinkPass_keys_nodup (mainPass s [] remote).nlist
          (mainPass s [] remote).titleChanged (remote.map (fun n => n.identifier))
          (mainPass s [] remote).store (mainPass_keys_nodup remote s [] hnodup)
      have hbdel : getA id (backlinkPass (mainPass s [] remote).store
          (mainPass s [] remote).nlist (mainPass s [] remote).titleChanged
          (remote.map (fun n => n.identifier))).1.deleted = some ddir := by
        rw [b2, m2]
        exact hdel
      obtain ⟨d1, d2, d3, d4⟩ := deletionPass_dup id
        (remote.map (fun n => n.identifier)) hnotin
        (backlinkPass (mainPass s [] remote).store (mainPass s [] remote).nlist
          (mainPass s [] remote).titleChanged
          (remote.map (fun n => n.identifier))).1.active
        (backlinkPass (mainPass s [] remote).store (mainPass s [] remote).nlist
          (mainPass s [] remote).titleChanged
          (remote.map (fun n => n.identifier))).1
        hnd2 (by rw [b1]; rfl) (by rw [hbdel]; rfl)
      refine ⟨d3, by rw [d1, b1], by rw [d2, hbdel], ?_⟩
      intro e he
      rcases List.mem_append.mp he with h | h
      · rcases List.mem_append.mp h with h2 | h2
        · exact m3 e h2
        · exact b3 e h2
      · exact d4 e h

/-- Witness for C9: identifier `Y` exists in both areas; the anomaly is
logged and both copies survive. -/
theorem claim_C9_witness :
    (synchronise [⟨"X", "T", [], "T1", []⟩]
      ⟨[("X", [("T1", ⟨some ⟨"T", []⟩, some [], [], true⟩)]),
        ("Y", [("T0", ⟨some ⟨"G", []⟩, some [], [], true⟩)])],
       [("Y", [("Told", Snapshot.empty)])]⟩).fatal = false ∧
    dupMsg "Y" ∈ (synchronise [⟨"X", "T", [], "T1", []⟩]
      ⟨[("X", [("T1", ⟨some ⟨"T", []⟩, some [], [], true⟩)]),
        ("Y", [("T0", ⟨some ⟨"G", []⟩, some [], [], true⟩)])],
       [("Y", [("Told", Snapshot.empty)])]⟩).log ∧
    getA "Y" (synchronise [⟨"X", "T", [], "T1", []⟩]
      ⟨[("X", [("T1", ⟨some ⟨"T", []⟩, some [], [], true⟩)]),
        ("Y", [("T0", ⟨some ⟨"G", []⟩, some [], [], true⟩)])],
       [("Y", [("Told", Snapshot.empty)])]⟩).store.active =
      some [("T0", ⟨some ⟨"G", []⟩, some [], [], true⟩)] ∧
    getA "Y" (synchronise [⟨"X", "T", [], "T1", []⟩]
      ⟨[("X", [("T1", ⟨some ⟨"T", []⟩, some [], [], true⟩)]),
        ("Y", [("T0", ⟨some ⟨"G", []⟩, some [], [], true⟩)])],
       [("Y", [("Told", Snapshot.empty)])]⟩).store.deleted =
      some [("Told", Snapshot.empty)] :=
  ⟨by decide,
    (claim_C9_duplicate_deletion [⟨"X", "T", [], "T1", []⟩]
      ⟨[("X", [("T1", ⟨some ⟨"T", []⟩, some [], [], true⟩)]),
        ("Y", [("T0", ⟨some ⟨"G", []⟩, some [], [], true⟩)])],
       [("Y", [("Told", Snapshot.empty)])]⟩ "Y"
      [("T0", ⟨some ⟨"G", []⟩, some [], [], true⟩)] [("Told", Snapshot.empty)]
      (by decide) (by decide) (by decide) (by decide) (by decide)).1,
    (claim_C9_duplicate_deletion [⟨"X", "T", [], "T1", []⟩]
      ⟨[("X", [("T1", ⟨some ⟨"T", []⟩, some [], [], true⟩)]),
        ("Y", [("T0", ⟨some ⟨"G", []⟩, some [], [], true⟩)])],
       [("Y", [("Told", Snapshot.empty)])]⟩ "Y"
      [("T0", ⟨some ⟨"G", []⟩, some [], [], true⟩)] [("Told", Snapshot.empty)]
      (by decide) (by decide) (by decide) (by decide) (by decide)).2.1,
    (claim_C9_duplicate_deletion [⟨"X", "T", [], "T1", []⟩]
      ⟨[("X", [("T1", ⟨some ⟨"T", []⟩, some [], [], true⟩)]),
        ("Y", [("T0", ⟨some ⟨"G", []⟩, some [], [], true⟩)])],
       [("Y", [("Told", Snapshot.empty)])]⟩ "Y"
      [("T0", ⟨some ⟨"G", []⟩, some [], [], true⟩)] [("Told", Snapshot.empty)]
      (by decide) (by decide) (by decide) (by decide) (by decide)).2.2.1⟩

end NoteDB
